import Mathlib

/-!
Verification of the parsing engine in this repository against its
natural-language specification.

The repository contains two generations of the engine:

* `src/parser/parser.py` (the "old" engine): parser classes `OrParser`,
  `RepeatParser`, `OptionalParser`, `ConcatenationParser`, `TerminalParser`,
  `NonTerminalParser`, `LiteralParser`, plus `tokenize`, `parse_generic`,
  `_check_non_terminal_rules` and `humanize_parse_error`.
* `src/parser/parser/parser.py` (the "new" engine): class `Parser` with
  expression kinds `ConcatenationExpression`, `ConjunctionExpression`,
  `NonTerminalExpression`, `OptionalExpression`, `RepeatExpression`,
  `TerminalExpression`, plus the pruning helpers `_prune_no_token_type`
  and `_prune_by_token_types`.

Symbol types (Python `IntEnum` members) are embedded as their `String`
names; a rule table is an association list from names to expressions; an
enumeration is the list of its member names in declaration order.

Python exceptions are embedded in an explicit error type: the engine
exceptions (`InternalParseError` for the old engine, `ParseError` for the
new one) get their own constructors, and the builtin `IndexError`,
`KeyError` and failing `assert` get catch-all constructors, because the
`except` clauses in the source catch only the engine exceptions and let
the builtins propagate.

Recursive parsing is embedded with explicit fuel: every function returns
`none` when the fuel runs out, so a genuinely divergent execution of the
Python code is the statement that the embedding returns `none` for every
fuel value.
-/

namespace ParserSpec

/-- Modelled from the spec (section 3, Token): the token record of the
missing `parser.tree` / `parser.tokenizer` modules, `{symbol_type, offset,
length}` with offset and length measured in source characters. -/
structure Token where
  type : String
  offset : Nat
  length : Nat
deriving Repr, DecidableEq

/-- Modelled from the spec (section 3, Parse tree node): the tree record of
the missing `parser.tree` / `parser.parser.models` modules,
`{token_offset, token_count, symbol_type optional, children}`. -/
inductive Tree where
  | mk (token_offset : Nat) (token_count : Nat) (token_type : Option String)
      (children : List Tree)
deriving Repr

def Tree.token_offset : Tree → Nat
  | .mk o _ _ _ => o

def Tree.token_count : Tree → Nat
  | .mk _ k _ _ => k

def Tree.token_type : Tree → Option String
  | .mk _ _ ty _ => ty

def Tree.children : Tree → List Tree
  | .mk _ _ _ cs => cs

theorem token_offset_mk (o k : Nat) (ty : Option String) (cs : List Tree) :
    (Tree.mk o k ty cs).token_offset = o := rfl

theorem token_count_mk (o k : Nat) (ty : Option String) (cs : List Tree) :
    (Tree.mk o k ty cs).token_count = k := rfl

theorem token_type_mk (o k : Nat) (ty : Option String) (cs : List Tree) :
    (Tree.mk o k ty cs).token_type = ty := rfl

theorem children_mk (o k : Nat) (ty : Option String) (cs : List Tree) :
    (Tree.mk o k ty cs).children = cs := rfl

/-- Replace the token_type field of a tree node, as the Python drivers do
with `tree.token_type = root_symbol`. -/
def Tree.withTokenType : Tree → Option String → Tree
  | .mk o k _ cs, ty => .mk o k ty cs

/-- Expressions of the old engine (`src/parser/parser.py`): one constructor
per `Parser` subclass. The `tag` argument is the mutable `token_type`
attribute of the dataclass `Parser` (default `None`); for `TerminalParser`
and `NonTerminalParser` the attribute is the symbol they were built from. -/
inductive PExpr where
  | orP (tag : Option String) (children : List PExpr)
  | repeatP (tag : Option String) (child : PExpr) (min_repeats : Nat)
  | optionalP (tag : Option String) (child : PExpr)
  | concatP (tag : Option String) (children : List PExpr)
  | terminalP (token_type : String)
  | nonTerminalP (token_type : String)
  | literalP (literal : String)
deriving Repr

/-- The `token_type` attribute read by `RepeatParser.parse` through
`self.child.token_type` when reporting a failed minimum-repeat count. -/
def PExpr.tokenTypeAttr : PExpr → Option String
  | .orP tag _ => tag
  | .repeatP tag _ _ => tag
  | .optionalP tag _ => tag
  | .concatP tag _ => tag
  | .terminalP tt => some tt
  | .nonTerminalP tt => some tt
  | .literalP _ => none

/-- Errors of the old engine. `internal` is `InternalParseError(token_offset,
token_type)`; `indexErr` and `keyErr` are the Python builtins raised by
out-of-range list indexing and failed dict/enum lookup; the remaining
constructors are raised by `_check_non_terminal_rules` and
`humanize_parse_error` (`UnhandledSymbolType`, `UnexpectedSymbolType`,
`ValueError`, `ParseError(line, column, line_text, expected)` with the
expected list always empty in the source). -/
inductive OldErr where
  | internal (token_offset : Nat) (token_type : Option String)
  | indexErr
  | keyErr
  | assertErr
  | unhandledSymbolType (name : String)
  | unexpectedSymbolType (names : List String)
  | valueErr
  | parseErr (line : Nat) (col : Nat) (lineText : List Char)
deriving Repr, DecidableEq

/-- Dict lookup `non_terminal_rules[key]`, embedded on an association list. -/
def lookupRule {α : Type} : List (String × α) → String → Option α
  | [], _ => none
  | (n, e) :: rest, k => if n = k then some e else lookupRule rest k

/-- The accumulator update of `OrParser.parse`: keep the current longest
parse unless the new result consumed strictly more tokens. -/
def betterOf : Option Tree → Tree → Tree
  | none, t => t
  | some b, t => if t.token_count > b.token_count then t else b

/-- The child loop of `OrParser.parse`: try every child in order, ignore
`InternalParseError`, propagate any other exception, and keep the longest
success (ties to the earliest child because the comparison is strict). -/
def orLoopF (p : PExpr → Nat → Option (Except OldErr Tree)) :
    List PExpr → Nat → Option Tree → Option (Except OldErr (Option Tree))
  | [], _, best => some (.ok best)
  | c :: cs, off, best =>
    match p c off with
    | none => none
    | some (.error (.internal _ _)) => orLoopF p cs off best
    | some (.error er) => some (.error er)
    | some (.ok t) => orLoopF p cs off (some (betterOf best t))

/-- The child loop of `ConcatenationParser.parse`: parse children left to
right, each at the offset where the previous one ended; any exception
propagates. Returns the collected subtrees and the final offset. -/
def concatLoopF (p : PExpr → Nat → Option (Except OldErr Tree)) :
    List PExpr → Nat → List Tree → Option (Except OldErr (List Tree × Nat))
  | [], co, acc => some (.ok (acc, co))
  | c :: cs, co, acc =>
    match p c co with
    | none => none
    | some (.error er) => some (.error er)
    | some (.ok t) => concatLoopF p cs (co + t.token_count) (acc ++ [t])

/-- The `while True` loop of `RepeatParser.parse`: parse the child at the
running offset until it raises `InternalParseError`; every success is
appended and advances the offset by its consumed count. The loop in the
source has no other exit, so the embedding spends one unit of fuel per
iteration and returns `none` when the fuel runs out. -/
def repeatLoopF (p : PExpr → Nat → Option (Except OldErr Tree)) :
    Nat → PExpr → Nat → List Tree → Option (Except OldErr (List Tree × Nat))
  | 0, _, _, _ => none
  | it + 1, c, co, acc =>
    match p c co with
    | none => none
    | some (.error (.internal _ _)) => some (.ok (acc, co))
    | some (.error er) => some (.error er)
    | some (.ok t) => repeatLoopF p it c (co + t.token_count) (acc ++ [t])

/-- `Parser.parse` of the old engine, dispatching on the subclass.

* `OrParser.parse` (lines 39-66): collect the longest success, fail with
  `InternalParseError(offset, self.token_type)` when every child fails,
  else wrap the winner in a tree tagged with `self.token_type`.
* `RepeatParser.parse` (lines 74-100): run the repeat loop, fail when fewer
  than `min_repeats` successes were collected, else build the spanning tree.
* `OptionalParser.parse` (lines 107-129): try the child once, catching only
  `InternalParseError`.
* `ConcatenationParser.parse` (lines 136-156).
* `TerminalParser.parse` (lines 163-176): `tokens[offset]` raises
  `IndexError` when the offset is not within the token list.
* `NonTerminalParser.parse` (lines 183-193): parse-time rule-table lookup.
* `LiteralParser.parse` (lines 200-212): ignores `self.literal` and
  delegates to the rule of the fixed symbol `internal_NON_TERMINAL_LITERAL`;
  `type(list(non_terminal_rules.keys())[0])` raises `IndexError` on an
  empty table and the enum/dict lookups raise `KeyError` when the symbol
  is absent. -/
def parseOld (R : List (String × PExpr)) (T : List Token) :
    Nat → PExpr → Nat → Option (Except OldErr Tree)
  | 0, _, _ => none
  | fuel + 1, e, off =>
    match e with
    | .orP tag cs =>
      match orLoopF (parseOld R T fuel) cs off none with
      | none => none
      | some (.error er) => some (.error er)
      | some (.ok none) => some (.error (.internal off tag))
      | some (.ok (some b)) =>
        some (.ok (.mk b.token_offset b.token_count tag [b]))
    | .repeatP tag c m =>
      match repeatLoopF (parseOld R T fuel) fuel c off [] with
      | none => none
      | some (.error er) => some (.error er)
      | some (.ok (subs, co)) =>
        if subs.length < m then
          some (.error (.internal off c.tokenTypeAttr))
        else
          some (.ok (.mk off (co - off) tag subs))
    | .optionalP tag c =>
      match parseOld R T fuel c off with
      | none => none
      | some (.ok t) => some (.ok (.mk off t.token_count tag [t]))
      | some (.error (.internal _ _)) => some (.ok (.mk off 0 tag []))
      | some (.error er) => some (.error er)
    | .concatP tag cs =>
      match concatLoopF (parseOld R T fuel) cs off [] with
      | none => none
      | some (.error er) => some (.error er)
      | some (.ok (subs, co)) => some (.ok (.mk off (co - off) tag subs))
    | .terminalP tt =>
      match T[off]? with
      | none => some (.error .indexErr)
      | some tok =>
        if tok.type = tt then some (.ok (.mk off 1 (some tt) []))
        else some (.error (.internal off (some tt)))
    | .nonTerminalP tt =>
      match lookupRule R tt with
      | none => some (.error .keyErr)
      | some body => parseOld R T fuel body off
    | .literalP _ =>
      if R.isEmpty then some (.error .indexErr)
      else
        match lookupRule R "internal_NON_TERMINAL_LITERAL" with
        | none => some (.error .keyErr)
        | some body => parseOld R T fuel body off

example :
    parseOld [] [Token.mk "A" 0 1] 3 (.terminalP "A") 0 =
      some (.ok (.mk 0 1 (some "A") [])) := rfl

example :
    parseOld [] [Token.mk "A" 0 1, Token.mk "B" 1 1] 5
      (.concatP none [.terminalP "A", .terminalP "B"]) 0 =
      some (.ok (.mk 0 2 none
        [.mk 0 1 (some "A") [], .mk 1 1 (some "B") []])) := rfl

example :
    parseOld [] [] 2 (.optionalP none (.terminalP "A")) 0 =
      some (.error .indexErr) := rfl

example :
    parseOld [] [Token.mk "A" 0 1, Token.mk "A" 1 1] 6
      (.orP none [.terminalP "A",
        .concatP none [.terminalP "A", .terminalP "A"]]) 0 =
      some (.ok (.mk 0 2 none
        [.mk 0 2 none [.mk 0 1 (some "A") [], .mk 1 1 (some "A") []]])) := rfl

/-- Expressions of the new engine (`src/parser/parser/parser.py`), one
constructor per expression model class. `RepeatExpression` has no minimum
count in this engine. -/
inductive NExpr where
  | concatenation (children : List NExpr)
  | conjunction (children : List NExpr)
  | nonTerminal (token_type : String)
  | optionalE (child : NExpr)
  | repeatE (child : NExpr)
  | terminal (token_type : String)
deriving Repr

/-- Errors of the new engine. `parseErr` is `ParseError(filename, code,
offset)` with the filename and code fixed by the `Parser` instance, so only
the offset argument is carried; the validation errors come from
`parser.parser.exceptions`; `indexErr`, `keyErr` and `assertErr` are the
Python builtins. -/
inductive NErr where
  | parseErr (offset : Nat)
  | indexErr
  | keyErr
  | assertErr
  | missingRoot
  | missingNonTerminalTypes (names : List String)
  | unexpectedNonTerminalTypes (names : List String)
deriving Repr, DecidableEq

/-- The child loop of `Parser._parse_conjunction` (lines 122-127): try the
children in order and break at the first success; `ParseError` moves on to
the next child, any other exception propagates. Returns the first success,
or `none` when every child failed. -/
def conjLoopF (p : NExpr → Nat → Option (Except NErr Tree)) :
    List NExpr → Nat → Option (Except NErr (Option Tree))
  | [], _ => some (.ok none)
  | c :: cs, off =>
    match p c off with
    | none => none
    | some (.ok t) => some (.ok (some t))
    | some (.error (.parseErr _)) => conjLoopF p cs off
    | some (.error er) => some (.error er)

/-- The child loop of `Parser._parse_concatenation` (lines 188-191). -/
def concatLoopNF (p : NExpr → Nat → Option (Except NErr Tree)) :
    List NExpr → Nat → List Tree → Option (Except NErr (List Tree × Nat))
  | [], co, acc => some (.ok (acc, co))
  | c :: cs, co, acc =>
    match p c co with
    | none => none
    | some (.error er) => some (.error er)
    | some (.ok t) => concatLoopNF p cs (co + t.token_count) (acc ++ [t])

/-- The `while True` loop of `Parser._parse_repeat` (lines 145-152), exited
only by a child `ParseError`; like the old engine the loop has no
zero-length guard, so the embedding spends one unit of fuel per iteration. -/
def repeatLoopNF (p : NExpr → Nat → Option (Except NErr Tree)) :
    Nat → NExpr → Nat → List Tree → Option (Except NErr (List Tree × Nat))
  | 0, _, _, _ => none
  | it + 1, c, co, acc =>
    match p c co with
    | none => none
    | some (.error (.parseErr _)) => some (.ok (acc, co))
    | some (.error er) => some (.error er)
    | some (.ok t) => repeatLoopNF p it c (co + t.token_count) (acc ++ [t])

/-- `Parser._parse` of the new engine (lines 92-213 including the helpers it
dispatches to). The dispatcher first handles an offset at or past the end
of the token list: `RepeatExpression` and `OptionalExpression` get an empty
zero-length tree, everything else raises `ParseError` at that offset.
Otherwise it dispatches on the expression kind:

* `_parse_concatenation` and `_parse_repeat` build an untagged spanning
  node over the collected children;
* `_parse_conjunction` wraps the first succeeding child (first match, not
  longest match) in an untagged node, and raises `ParseError` at the
  original offset when no child succeeds;
* `_parse_optional` tries the child once, catching only `ParseError`;
* `_parse_terminal` compares `self.tokens[offset].type` against the
  expected symbol;
* `_parse_non_terminal` looks the symbol up in the rule table
  (`KeyError` when absent) and wraps the result in a node tagged with
  the symbol. -/
def parseNew (R : List (String × NExpr)) (T : List Token) :
    Nat → NExpr → Nat → Option (Except NErr Tree)
  | 0, _, _ => none
  | fuel + 1, e, off =>
    if T.length ≤ off then
      match e with
      | .repeatE _ => some (.ok (.mk off 0 none []))
      | .optionalE _ => some (.ok (.mk off 0 none []))
      | _ => some (.error (.parseErr off))
    else
      match e with
      | .concatenation cs =>
        match concatLoopNF (parseNew R T fuel) cs off [] with
        | none => none
        | some (.error er) => some (.error er)
        | some (.ok (subs, co)) => some (.ok (.mk off (co - off) none subs))
      | .conjunction cs =>
        match conjLoopF (parseNew R T fuel) cs off with
        | none => none
        | some (.error er) => some (.error er)
        | some (.ok none) => some (.error (.parseErr off))
        | some (.ok (some t)) =>
          some (.ok (.mk t.token_offset t.token_count none [t]))
      | .nonTerminal tt =>
        match lookupRule R tt with
        | none => some (.error .keyErr)
        | some body =>
          match parseNew R T fuel body off with
          | none => none
          | some (.error er) => some (.error er)
          | some (.ok child) =>
            some (.ok (.mk child.token_offset child.token_count (some tt) [child]))
      | .optionalE c =>
        match parseNew R T fuel c off with
        | none => none
        | some (.ok t) => some (.ok (.mk off t.token_count none [t]))
        | some (.error (.parseErr _)) => some (.ok (.mk off 0 none []))
        | some (.error er) => some (.error er)
      | .repeatE c =>
        match repeatLoopNF (parseNew R T fuel) fuel c off [] with
        | none => none
        | some (.error er) => some (.error er)
        | some (.ok (subs, co)) => some (.ok (.mk off (co - off) none subs))
      | .terminal tt =>
        match T[off]? with
        | none => some (.error .indexErr)
        | some tok =>
          if tok.type = tt then some (.ok (.mk off 1 (some tt) []))
          else some (.error (.parseErr off))

example :
    parseNew [] [Token.mk "A" 0 1, Token.mk "A" 1 1] 6
      (.conjunction [.terminal "A",
        .concatenation [.terminal "A", .terminal "A"]]) 0 =
      some (.ok (.mk 0 1 none [.mk 0 1 (some "A") []])) := rfl

example :
    parseNew [] [] 3 (.optionalE (.terminal "A")) 0 =
      some (.ok (.mk 0 0 none [])) := rfl

/-! ### Tokenizer (old engine, `tokenize`, lines 287-308)

`RegexTokenizer.tokenize` (lines 225-236) is a function from the code and
an offset to `None` or a positive match length; it is embedded abstractly
as such a function, `Matcher`. Source text is a list of characters. -/

def Matcher : Type := List Char → Nat → Option Nat

/-- The `for token_type, tokenizer in terminal_rules` loop body: the first
rule whose tokenizer returns a length wins (the `break`); when no rule
matches the loop falls through without any effect. -/
def tryRules : List (String × Matcher) → List Char → Nat → Option (String × Nat)
  | [], _, _ => none
  | (tt, m) :: rs, code, off =>
    match m code off with
    | some len => some (tt, len)
    | none => tryRules rs code off

/-- The `while offset < len(code)` loop of `tokenize`. When no rule matches
at the current offset the source re-enters the loop with the offset
unchanged — there is no error branch — so the embedding spends one unit of
fuel per iteration of the while loop and `none` for every fuel value means
the Python loop never terminates. A matched token whose type is in
`pruned_terminals` advances the offset without being emitted. -/
def tokenizeLoop (rules : List (String × Matcher)) (pruned : List String)
    (code : List Char) : Nat → Nat → List Token → Option (List Token)
  | 0, _, _ => none
  | fuel + 1, off, acc =>
    if off < code.length then
      match tryRules rules code off with
      | none => tokenizeLoop rules pruned code fuel off acc
      | some (tt, len) =>
        tokenizeLoop rules pruned code fuel (off + len)
          (if pruned.contains tt then acc else acc ++ [Token.mk tt off len])
    else some acc

/-- `tokenize(code, terminal_rules, pruned_terminals)` itself: run the loop
from offset 0 with an empty token list. -/
def tokenizeOld (rules : List (String × Matcher)) (pruned : List String)
    (code : List Char) (fuel : Nat) : Option (List Token) :=
  tokenizeLoop rules pruned code fuel 0 []

/-- A concrete `RegexTokenizer("[0-9]+")`: the length of the maximal digit
prefix at the offset, `None` when it is empty (the zero-length guard of
`RegexTokenizer.tokenize`). -/
def digitMatch : Matcher := fun code off =>
  match ((code.drop off).takeWhile Char.isDigit).length with
  | 0 => none
  | n + 1 => some (n + 1)

example : tokenizeOld [("NUMBER", digitMatch)] [] "12".toList 5 =
    some [Token.mk "NUMBER" 0 2] := rfl

/-! ### Rule-table validation -/

/-- The enumeration members without a rule-table entry, in declaration
order of the enumeration. -/
def missingOf (enumNames keys : List String) : List String :=
  enumNames.filter (fun n => !keys.contains n)

/-- The rule-table keys that are not members of the enumeration, in
rule-table order. -/
def unexpectedOf (enumNames keys : List String) : List String :=
  keys.filter (fun k => !enumNames.contains k)

/-- `_check_non_terminal_rules` of the old engine (lines 260-284):
`type(list(keys)[0])` raises `IndexError` on an empty table; the member
loop raises `UnhandledSymbolType(enum_value)` at the first member without
an entry; then a set comparison raises `UnexpectedSymbolType` with every
extra key; finally `symbols_enum["ROOT"]` raises `ValueError` (wrapping
the `KeyError`) when the enumeration has no `ROOT` member. -/
def checkOld (enumNames keys : List String) : Option OldErr :=
  if keys.isEmpty then some .indexErr
  else
    match missingOf enumNames keys with
    | m :: _ => some (.unhandledSymbolType m)
    | [] =>
      if !(unexpectedOf enumNames keys).isEmpty then
        some (.unexpectedSymbolType (unexpectedOf enumNames keys))
      else if enumNames.contains "ROOT" then none
      else some .valueErr

/-- `Parser._check_non_terminal_rules` of the new engine (lines 215-228):
`type(list(keys)[0])` raises `IndexError` on an empty table; then the root
membership is tested first (`MissingRootNonTerminalType`), then the missing
members (`MissingNonTerminalTypes`), then the extra keys
(`UnexpectedNonTerminalTypes`). -/
def checkNew (enumNames keys : List String) : Option NErr :=
  if keys.isEmpty then some .indexErr
  else if !(enumNames.contains "ROOT") then some .missingRoot
  else if !(missingOf enumNames keys).isEmpty then
    some (.missingNonTerminalTypes (missingOf enumNames keys))
  else if !(unexpectedOf enumNames keys).isEmpty then
    some (.unexpectedNonTerminalTypes (unexpectedOf enumNames keys))
  else none

/-! ### Error humanizing (old engine, `humanize_parse_error`, lines 239-257) -/

/-- `humanize_parse_error(code, tokens, e)`: `tokens[e.token_offset]`
raises `IndexError` when the token offset is out of range; otherwise the
token source offset is mapped to a 1-indexed line number, a column number
counted from the preceding line break, and the text of the offending line,
giving `ParseError(line, column, line_text, [])`. -/
def humanizeParseErr (code : List Char) (tokens : List Token)
    (tokOff : Nat) : OldErr :=
  match tokens[tokOff]? with
  | none => .indexErr
  | some tok =>
    let offset := tok.offset
    let before := code.take offset
    let lineNum := 1 + before.count '\n'
    let prevStop :=
      match before.reverse.findIdx? (fun ch => ch = '\n') with
      | none => 0
      | some r => before.length - r
    let nextStop :=
      match (code.drop offset).findIdx? (fun ch => ch = '\n') with
      | none => code.length
      | some d => offset + d
    .parseErr lineNum (offset + 1 - prevStop) ((code.take nextStop).drop prevStop)

example : humanizeParseErr "ab\ncd".toList [Token.mk "X" 4 1] 0 =
    .parseErr 2 2 "cd".toList := rfl

/-! ### Drivers -/

/-- The `tree.token_type = root_symbol` mutation of `parse_generic`
(line 327) applied to a parser object: it overwrites the `token_type`
attribute of the dataclass, which for `TerminalParser` and
`NonTerminalParser` is the symbol they match on (the source guards only
against `NonTerminalParser`); `LiteralParser` keeps no useful attribute
because its `parse` never reads it. -/
def setTokenTypeAttr : PExpr → String → PExpr
  | .orP _ cs, r => .orP (some r) cs
  | .repeatP _ c m, r => .repeatP (some r) c m
  | .optionalP _ c, r => .optionalP (some r) c
  | .concatP _ cs, r => .concatP (some r) cs
  | .terminalP _, r => .terminalP r
  | .nonTerminalP _, r => .nonTerminalP r
  | .literalP s, _ => .literalP s

/-- Replace the entry of a key in the rule table (the mutation of the root
parser object is visible through the table because the table holds the
same object). -/
def updateRule : List (String × PExpr) → String → PExpr → List (String × PExpr)
  | [], _, _ => []
  | (n, e) :: rest, k, v =>
    if n = k then (n, v) :: updateRule rest k v
    else (n, e) :: updateRule rest k v

/-! ### Pruning

The new engine's pruning lives in `src/parser/parser/parser.py`
(`_get_descendants_with_token_type`, `_prune_no_token_type`,
`_get_descendants_without_token_types`, `_prune_by_token_types`). The old
engine's pruning functions (`prune_no_symbol`, `prune_zero_length`,
`prune_by_symbol_types`) live in the `parser.tree` module, which is not in
the repository snapshot, and are modelled from the spec below. -/

/-- Membership test `child.token_type in token_types` where the child type
may be `None` and the set holds symbol types only. -/
def optMem (o : Option String) (tts : List String) : Bool :=
  match o with
  | some s => tts.contains s
  | none => false

/-- `_get_descendants_with_token_type(tree)` (lines 268-279), written on the
child list: an untagged child is replaced by its own processed descendants
(splice), a tagged child is kept with its children replaced by its
processed descendants; order follows the source loop. -/
def getDescWithList : List Tree → List Tree
  | [] => []
  | .mk o k ty gs :: cs =>
    (match ty with
     | none => getDescWithList gs
     | some s => [Tree.mk o k (some s) (getDescWithList gs)]) ++
      getDescWithList cs

/-- `_get_descendants_without_token_types(tree, token_types)`
(lines 231-247), written on the child list: a child whose type is in the
set is replaced by its processed descendants, any other child is kept with
processed children. -/
def getDescWithoutList (tts : List String) : List Tree → List Tree
  | [] => []
  | .mk o k ty gs :: cs =>
    (if optMem ty tts then getDescWithoutList tts gs
     else [Tree.mk o k ty (getDescWithoutList tts gs)]) ++
      getDescWithoutList tts cs

/-- `_prune_no_token_type(tree)` (lines 282-290): the `assert
tree.token_type is not None` fails on an untagged root (modelled as
`none`); otherwise the root is kept with its descendants processed. -/
def pruneNoTokenTypeN (t : Tree) : Option Tree :=
  match t with
  | .mk _ _ none _ => none
  | .mk o k (some ty) cs => some (.mk o k (some ty) (getDescWithList cs))

/-- `_prune_by_token_types(tree, token_types)` (lines 250-265): the root is
kept; the processed descendant list is computed, and each of its members is
rebuilt with its (already processed) children processed once more, exactly
as the list comprehension in the source does. -/
def pruneByTokenTypesN (t : Tree) (tts : List String) : Tree :=
  match t with
  | .mk o k ty cs =>
    let ds := getDescWithoutList tts cs
    .mk o k ty (ds.map (fun d =>
      Tree.mk d.token_offset d.token_count d.token_type
        (getDescWithoutList tts d.children)))

/-- The pruning pipeline of `Parser.parse` (lines 61-69): untagged-node
elision, then targeted pruning with the parser's fixed set of pruned
non-terminals. (The `or empty_tree` fallbacks in the source are dead
because both functions return a truthy `Tree`.) -/
def pruneDriverN (S : List String) (t : Tree) : Option Tree :=
  match pruneNoTokenTypeN t with
  | none => none
  | some t1 => some (pruneByTokenTypesN t1 S)

/-- Modelled from the spec: `prune_no_symbol` of the missing `parser.tree`
module, spec section 4.4 stage 1 — remove every node with no symbol type,
splicing its children into its parent in place, or `empty` (here `none`)
when the root itself is untagged. -/
def pruneNoSymbol (t : Tree) : Option Tree :=
  match t with
  | .mk _ _ none _ => none
  | .mk o k (some ty) cs => some (.mk o k (some ty) (getDescWithList cs))

/-- The descendant filter of the zero-length elision stage: a node of
consumed length zero is removed with its whole subtree (it represents
absence, and all of its descendants have length zero as well). -/
def filterZeroList : List Tree → List Tree
  | [] => []
  | .mk o k ty gs :: cs =>
    (if k = 0 then [] else [Tree.mk o k ty (filterZeroList gs)]) ++
      filterZeroList cs

/-- Modelled from the spec: `prune_zero_length` of the missing
`parser.tree` module, spec section 4.4 stage 2 — remove every node whose
consumed length is zero, or `none` when the root itself has length zero. -/
def pruneZeroLength (t : Tree) : Option Tree :=
  match t with
  | .mk o k ty cs => if k = 0 then none else some (.mk o k ty (filterZeroList cs))

/-- The descendant filter of soft targeted pruning: a node whose symbol
type is in the set is removed together with its entire subtree. -/
def dropTtsList (tts : List String) : List Tree → List Tree
  | [] => []
  | .mk o k ty gs :: cs =>
    (if optMem ty tts then [] else [Tree.mk o k ty (dropTtsList tts gs)]) ++
      dropTtsList tts cs

/-- Modelled from the spec: `prune_by_symbol_types` of the missing
`parser.tree` module, spec section 4.4 stage 3 — hard pruning removes a
matching node but splices its children into its parent, soft pruning
removes the node and its entire subtree; the root node itself is kept, as
in the in-repository analogue `_prune_by_token_types`. -/
def pruneBySymbolTypes (t : Tree) (tts : List String) (hard : Bool) : Tree :=
  match t with
  | .mk o k ty cs =>
    .mk o k ty (if hard then getDescWithoutList tts cs else dropTtsList tts cs)

/-- The pruning pipeline of `parse_generic` (lines 341-355): untagged-node
elision, zero-length elision, then hard and soft targeted pruning for the
caller-supplied sets when they are given. Each `assert parsed` of the
source corresponds to the stage result being `some`. -/
def fullPruneOld (hard soft : Option (List String)) (t : Tree) : Option Tree :=
  match pruneNoSymbol t with
  | none => none
  | some t1 =>
    match pruneZeroLength t1 with
    | none => none
    | some t2 =>
      let t3 := match hard with
        | none => t2
        | some hs => pruneBySymbolTypes t2 hs true
      let t4 := match soft with
        | none => t3
        | some ss => pruneBySymbolTypes t3 ss false
      some t4

example :
    pruneDriverN ["H"]
      (Tree.mk 0 2 (some "ROOT")
        [Tree.mk 0 1 none [Tree.mk 0 1 (some "A") []],
         Tree.mk 1 1 (some "H") [Tree.mk 1 1 (some "B") []]]) =
    some (Tree.mk 0 2 (some "ROOT")
      [Tree.mk 0 1 (some "A") [], Tree.mk 1 1 (some "B") []]) := by
  simp [pruneDriverN, pruneNoTokenTypeN, pruneByTokenTypesN, getDescWithList,
    getDescWithoutList, optMem, Tree.token_offset, Tree.token_count,
    Tree.token_type, Tree.children]

/-! ### Whole-parse drivers -/

/-- `parse_generic` of the old engine (lines 311-355): validate the rule
table; look up the root symbol (default `"ROOT"`) and its rule; retag the
root parser object unless it is a `NonTerminalParser` (the mutation is
visible through the rule table); parse from offset 0; retag the resulting
tree; compare the consumed token count against `len(code)` — the length of
the source string, not of the token list — and on mismatch raise
`InternalParseError(parsed.token_count, None)`; any `InternalParseError`
from the `try` block is translated by `humanize_parse_error`; finally run
the pruning pipeline, whose `assert`s are modelled by `assertErr`. -/
def parseGenericOld (fuel : Nat) (enumNames : List String)
    (R : List (String × PExpr)) (T : List Token) (code : List Char)
    (hard soft : Option (List String)) (rootToken : String) :
    Option (Except OldErr Tree) :=
  match checkOld enumNames (R.map Prod.fst) with
  | some er => some (.error er)
  | none =>
    if enumNames.contains rootToken then
      match lookupRule R rootToken with
      | none => some (.error .keyErr)
      | some e0 =>
        let e1 := match e0 with
          | .nonTerminalP tt => PExpr.nonTerminalP tt
          | e => setTokenTypeAttr e rootToken
        let R1 := match e0 with
          | .nonTerminalP _ => R
          | _ => updateRule R rootToken e1
        match parseOld R1 T fuel e1 0 with
        | none => none
        | some (.error (.internal toff _)) =>
          some (.error (humanizeParseErr code T toff))
        | some (.error er) => some (.error er)
        | some (.ok t) =>
          let t1 := t.withTokenType (some rootToken)
          if t1.token_count ≠ code.length then
            some (.error (humanizeParseErr code T t1.token_count))
          else
            match fullPruneOld hard soft t1 with
            | none => some (.error .assertErr)
            | some u => some (.ok u)
    else some (.error .keyErr)

/-- `Parser.parse` of the new engine (lines 46-69): validate the rule
table; look up the root symbol (default `"ROOT"`) and its rule; parse from
offset 0 and tag the resulting tree with the root symbol; when the
consumed token count differs from the token-list length, assert it is
smaller and raise `ParseError` at the source offset of the first
unconsumed token; finally run the pruning pipeline. -/
def newParserParse (fuel : Nat) (enumNames : List String)
    (R : List (String × NExpr)) (T : List Token)
    (prunedNonTerminals : List String) (rootToken : String) :
    Option (Except NErr Tree) :=
  match checkNew enumNames (R.map Prod.fst) with
  | some er => some (.error er)
  | none =>
    if enumNames.contains rootToken then
      match lookupRule R rootToken with
      | none => some (.error .keyErr)
      | some rootExpr =>
        match parseNew R T fuel rootExpr 0 with
        | none => none
        | some (.error er) => some (.error er)
        | some (.ok t) =>
          let t1 := t.withTokenType (some rootToken)
          if t1.token_count = T.length then
            match pruneDriverN prunedNonTerminals t1 with
            | none => some (.error .assertErr)
            | some u => some (.ok u)
          else if t1.token_count < T.length then
            match T[t1.token_count]? with
            | none => some (.error .indexErr)
            | some tok => some (.error (.parseErr tok.offset))
          else some (.error .assertErr)
    else some (.error .keyErr)

/-! ### Claim C1: repetition over a zero-length-matching child -/

/-- The token list of the C1 scenario: a single PLUS token, on which an
optional NUMBER terminal succeeds while consuming nothing. -/
def c1Tokens : List Token := [Token.mk "PLUS" 0 1]

/-- The repeated child of the C1 scenario for the old engine. -/
def c1Child : PExpr := .optionalP none (.terminalP "NUMBER")

/-- The repeated child of the C1 scenario for the new engine. -/
def c1ChildN : NExpr := .optionalE (.terminal "NUMBER")

theorem c1_old_child_eval (f : Nat) :
    parseOld [] c1Tokens f c1Child 0 = none ∨
      parseOld [] c1Tokens f c1Child 0 = some (.ok (.mk 0 0 none [])) := by
  match f with
  | 0 => exact Or.inl rfl
  | 1 => exact Or.inl rfl
  | f + 2 => exact Or.inr rfl

theorem c1_old_loop (f : Nat) :
    ∀ it acc, repeatLoopF (parseOld [] c1Tokens f) it c1Child 0 acc = none := by
  intro it
  induction it with
  | zero => intro acc; rfl
  | succ n ih =>
    intro acc
    rcases c1_old_child_eval f with h | h
    · simp [repeatLoopF, h]
    · simp [repeatLoopF, h, Tree.token_count]
      exact ih _

theorem c1_new_child_eval (f : Nat) :
    parseNew [] c1Tokens f c1ChildN 0 = none ∨
      parseNew [] c1Tokens f c1ChildN 0 = some (.ok (.mk 0 0 none [])) := by
  match f with
  | 0 => exact Or.inl rfl
  | 1 => exact Or.inl rfl
  | f + 2 => exact Or.inr rfl

theorem c1_new_loop (f : Nat) :
    ∀ it acc, repeatLoopNF (parseNew [] c1Tokens f) it c1ChildN 0 acc = none := by
  intro it
  induction it with
  | zero => intro acc; rfl
  | succ n ih =>
    intro acc
    rcases c1_new_child_eval f with h | h
    · simp [repeatLoopNF, h]
    · simp [repeatLoopNF, h, Tree.token_count]
      exact ih _

/-- Claim C1: the claim says an iteration of the repetition loop that
succeeds with zero consumed tokens is treated as a failed iteration and
stops the loop. Neither engine has such a guard: on a repetition whose
child is an optional terminal that does not match the current token, both
parse functions return `none` for every fuel value — the embedded
`while True` loops of `RepeatParser.parse` and `Parser._parse_repeat`
append the zero-length success and retry the same offset forever. -/
theorem claim1_repeat_diverges :
    (∀ fuel, parseOld [] c1Tokens fuel (.repeatP none c1Child 0) 0 = none) ∧
    (∀ fuel, parseNew [] c1Tokens fuel (.repeatE c1ChildN) 0 = none) := by
  constructor
  · intro fuel
    match fuel with
    | 0 => rfl
    | f + 1 => simp [parseOld, c1_old_loop f]
  · intro fuel
    match fuel with
    | 0 => rfl
    | f + 1 =>
      have h := c1_new_loop f f []
      simp only [c1Tokens] at h
      simp [parseNew, c1Tokens, h]

/-! ### Claim C2: tokenize on an offset where no rule matches -/

/-- Claim C2 (divergence part): when the current offset is strictly inside
the source and no lexical rule matches there, the `while` loop of
`tokenize` re-enters with the offset unchanged and no error is ever
raised: the embedding returns `none` for every fuel, i.e. the Python loop
runs forever instead of failing with a located error. -/
theorem claim2_tokenize_diverges (rules : List (String × Matcher))
    (pruned : List String) (code : List Char) (off : Nat) (acc : List Token)
    (hlt : off < code.length) (hnone : tryRules rules code off = none) :
    ∀ fuel, tokenizeLoop rules pruned code fuel off acc = none := by
  intro fuel
  induction fuel with
  | zero => rfl
  | succ n ih => simpa [tokenizeLoop, hlt, hnone] using ih

/-- Witness for C2: the source `"a"` with the single rule
`NUMBER = [0-9]+` has no match at offset 0, and the tokenizer loop
returns `none` at a concrete fuel. -/
theorem claim2_witness :
    (0 < ("a".toList).length ∧
      tryRules [("NUMBER", digitMatch)] "a".toList 0 = none) ∧
    tokenizeLoop [("NUMBER", digitMatch)] [] "a".toList 7 0 [] = none :=
  ⟨⟨by decide, rfl⟩,
    claim2_tokenize_diverges [("NUMBER", digitMatch)] [] "a".toList 0 []
      (by decide) rfl 7⟩

/-! ### Claim C5: the Optional expression -/

/-- Counterexample for C5: in the old engine, an Optional over a terminal,
parsed at an offset at the end of the token list, raises the `IndexError`
of `TerminalParser.parse` through `OptionalParser.parse` to its parent —
so parsing the Optional is not failure-free at every offset. -/
theorem claim5_counterexample :
    parseOld [] [] 2 (.optionalP none (.terminalP "A")) 0 =
      some (.error .indexErr) := rfl

/-- Claim C5 (amended): if the child parse succeeds, the Optional result
has exactly one child carrying the child's consumed span; if the child
fails with the engine's structured parse failure, the result has zero
children and zero length. In the new engine this also covers every offset
at or past the end of the token list, where the dispatcher returns the
zero-length result directly; in the old engine a terminal child at such an
offset raises an out-of-range indexing error that propagates to the
parent (see the counterexample). -/
theorem claim5_optional :
    (∀ (R : List (String × PExpr)) (T : List Token) (fuel : Nat)
        (tag : Option String) (c : PExpr) (off : Nat),
      (∀ t, parseOld R T fuel c off = some (.ok t) →
        parseOld R T (fuel + 1) (.optionalP tag c) off =
          some (.ok (.mk off t.token_count tag [t]))) ∧
      (∀ o tt, parseOld R T fuel c off = some (.error (.internal o tt)) →
        parseOld R T (fuel + 1) (.optionalP tag c) off =
          some (.ok (.mk off 0 tag [])))) ∧
    (∀ (R : List (String × NExpr)) (T : List Token) (fuel : Nat)
        (c : NExpr) (off : Nat),
      (off < T.length →
        (∀ t, parseNew R T fuel c off = some (.ok t) →
          parseNew R T (fuel + 1) (.optionalE c) off =
            some (.ok (.mk off t.token_count none [t]))) ∧
        (∀ o, parseNew R T fuel c off = some (.error (.parseErr o)) →
          parseNew R T (fuel + 1) (.optionalE c) off =
            some (.ok (.mk off 0 none [])))) ∧
      (T.length ≤ off →
        parseNew R T (fuel + 1) (.optionalE c) off =
          some (.ok (.mk off 0 none [])))) := by
  refine ⟨fun R T fuel tag c off => ⟨?_, ?_⟩, fun R T fuel c off => ⟨fun hlt => ⟨?_, ?_⟩, ?_⟩⟩
  · intro t h; simp [parseOld, h]
  · intro o tt h; simp [parseOld, h]
  · intro t h; simp [parseNew, Nat.not_le.mpr hlt, h]
  · intro o h; simp [parseNew, Nat.not_le.mpr hlt, h]
  · intro hge; cases fuel <;> simp [parseNew, hge]

/-- Witness for C5: concrete applications of the amended claim. -/
theorem claim5_witness :
    parseOld [] [Token.mk "A" 0 1] 2 (.optionalP none (.terminalP "A")) 0 =
      some (.ok (.mk 0 1 none [.mk 0 1 (some "A") []])) ∧
    parseNew [] [] 1 (.optionalE (.terminal "A")) 0 =
      some (.ok (.mk 0 0 none [])) :=
  ⟨(claim5_optional.1 [] [Token.mk "A" 0 1] 1 none (.terminalP "A") 0).1
      (.mk 0 1 (some "A") []) rfl,
    (claim5_optional.2 [] [] 0 (.terminal "A") 0).2 (by decide)⟩

/-! ### Claim C7: terminal parsing and token-list bounds -/

/-- Claim C7: in the old engine, `TerminalParser.parse` is safe exactly
under the precondition that the offset is strictly within the token list —
there it returns a one-token tree or the structured `InternalParseError` —
while at an offset at or past the end the indexing raises `IndexError`.
The new engine needs no precondition: its dispatcher checks for the end of
input first and returns the empty zero-length tree for Repeat and Optional
expressions and a structured `ParseError` at that offset for every other
expression kind. -/
theorem claim7_terminal_bounds :
    (∀ (R : List (String × PExpr)) (T : List Token) (fuel : Nat)
        (tt : String) (off : Nat) (h : off < T.length),
      parseOld R T (fuel + 1) (.terminalP tt) off =
        if (T.get ⟨off, h⟩).type = tt then some (.ok (.mk off 1 (some tt) []))
        else some (.error (.internal off (some tt)))) ∧
    (∀ (R : List (String × PExpr)) (T : List Token) (fuel : Nat)
        (tt : String) (off : Nat), T.length ≤ off →
      parseOld R T (fuel + 1) (.terminalP tt) off = some (.error .indexErr)) ∧
    (∀ (R : List (String × NExpr)) (T : List Token) (fuel : Nat)
        (e : NExpr) (off : Nat), T.length ≤ off →
      parseNew R T (fuel + 1) e off =
        match e with
        | .repeatE _ => some (.ok (.mk off 0 none []))
        | .optionalE _ => some (.ok (.mk off 0 none []))
        | _ => some (.error (.parseErr off))) := by
  refine ⟨fun R T fuel tt off h => ?_, fun R T fuel tt off h => ?_,
    fun R T fuel e off h => ?_⟩
  · simp [parseOld, List.getElem?_eq_getElem h]
  · simp [parseOld, List.getElem?_eq_none h]
  · cases e <;> simp [parseNew, h]

/-- Witness for C7: concrete instances of all three parts. -/
theorem claim7_witness :
    parseOld [] [Token.mk "A" 0 1] 1 (.terminalP "A") 0 =
      some (.ok (.mk 0 1 (some "A") [])) ∧
    parseOld [] [] 1 (.terminalP "A") 0 = some (.error .indexErr) ∧
    parseNew ([] : List (String × NExpr)) [] 1 (.terminal "A") 0 =
      some (.error (.parseErr 0)) := by
  refine ⟨?_, ?_, ?_⟩
  · rw [claim7_terminal_bounds.1 [] [Token.mk "A" 0 1] 0 "A" 0 (by decide)]
    rfl
  · exact claim7_terminal_bounds.2.1 [] [] 0 "A" 0 (by decide)
  · exact claim7_terminal_bounds.2.2 [] [] 0 (.terminal "A") 0 (by decide)

/-! ### Claim C10: LiteralParser ignores its literal -/

/-- Claim C10: `LiteralParser.parse` never reads `self.literal`: two
literal expressions built from any two strings parse identically on every
rule table, token list and offset, and whenever the table has the
conventionally-named `internal_NON_TERMINAL_LITERAL` entry (and is
non-empty), parsing a literal is exactly parsing that fixed rule. -/
theorem claim10_literal_ignored :
    (∀ (R : List (String × PExpr)) (T : List Token) (fuel : Nat)
        (s1 s2 : String) (off : Nat),
      parseOld R T fuel (.literalP s1) off = parseOld R T fuel (.literalP s2) off) ∧
    (∀ (R : List (String × PExpr)) (T : List Token) (fuel : Nat)
        (off : Nat) (body : PExpr) (s : String), R ≠ [] →
      lookupRule R "internal_NON_TERMINAL_LITERAL" = some body →
      parseOld R T (fuel + 1) (.literalP s) off = parseOld R T fuel body off) := by
  constructor
  · intro R T fuel s1 s2 off
    cases fuel <;> rfl
  · intro R T fuel off body s hne hl
    match R, hne with
    | r :: rest, _ => simp [parseOld, hl]

/-- Witness for C10: with the conventional entry mapping to a terminal,
the parse of two different literals is the parse of that terminal. -/
theorem claim10_witness :
    parseOld [("internal_NON_TERMINAL_LITERAL", PExpr.terminalP "X")]
        [Token.mk "X" 0 1] 2 (.literalP "foo") 0 =
      parseOld [("internal_NON_TERMINAL_LITERAL", PExpr.terminalP "X")]
        [Token.mk "X" 0 1] 1 (.terminalP "X") 0 ∧
    parseOld [("internal_NON_TERMINAL_LITERAL", PExpr.terminalP "X")]
        [Token.mk "X" 0 1] 2 (.literalP "foo") 0 =
      parseOld [("internal_NON_TERMINAL_LITERAL", PExpr.terminalP "X")]
        [Token.mk "X" 0 1] 2 (.literalP "bar") 0 :=
  ⟨claim10_literal_ignored.2 _ _ 1 0 (PExpr.terminalP "X") "foo"
      (List.cons_ne_nil _ _) rfl,
    claim10_literal_ignored.1 _ _ 2 "foo" "bar" 0⟩

/-! ### Claim C4: alternation disambiguation -/

/-- The results of parsing every child of an alternation at the same
offset with the same child parser, `none` when any of them runs out of
fuel. This is the reference point for characterising the child loops. -/
def childResults {α ε : Type} (p : α → Nat → Option (Except ε Tree)) :
    List α → Nat → Option (List (Except ε Tree))
  | [], _ => some []
  | c :: cs, off =>
    match p c off, childResults p cs off with
    | some r, some rs => some (r :: rs)
    | _, _ => none

def okOf {ε : Type} : Except ε Tree → Option Tree
  | .ok t => some t
  | .error _ => none

/-- The succeeding children of an alternation, in declaration order. -/
def successesOf {ε : Type} (rs : List (Except ε Tree)) : List Tree :=
  rs.filterMap okOf

/-- A child outcome the old engine's `OrParser` loop absorbs: a success or
an `InternalParseError`; any other exception aborts the loop. -/
def softOld : Except OldErr Tree → Bool
  | .ok _ => true
  | .error (.internal _ _) => true
  | .error _ => false

/-- A child outcome the new engine's conjunction loop absorbs: a success
or a `ParseError`. -/
def softNew : Except NErr Tree → Bool
  | .ok _ => true
  | .error (.parseErr _) => true
  | .error _ => false

/-- The first success of a result list, which is what the new engine's
first-match conjunction selects. -/
def firstOkOf {ε : Type} : List (Except ε Tree) → Option Tree
  | [] => none
  | .ok t :: _ => some t
  | .error _ :: rs => firstOkOf rs

/-- The pure fold performed by the accumulator of `OrParser.parse` over
the succeeding children. -/
def orFold : Option Tree → List Tree → Option Tree
  | best, [] => best
  | best, t :: ts => orFold (some (betterOf best t)) ts

theorem orLoopF_eq_fold (p : PExpr → Nat → Option (Except OldErr Tree)) :
    ∀ (cs : List PExpr) (off : Nat) (rs : List (Except OldErr Tree))
      (best : Option Tree),
      childResults p cs off = some rs → (∀ r ∈ rs, softOld r = true) →
      orLoopF p cs off best = some (.ok (orFold best (successesOf rs))) := by
  intro cs
  induction cs with
  | nil =>
    intro off rs best h _
    simp [childResults] at h
    subst h
    rfl
  | cons c cs ih =>
    intro off rs best h hsoft
    rw [childResults] at h
    cases hp : p c off with
    | none => rw [hp] at h; simp at h
    | some r =>
      cases hrest : childResults p cs off with
      | none => rw [hp, hrest] at h; simp at h
      | some rs2 =>
        rw [hp, hrest] at h
        simp at h
        subst h
        match r with
        | .ok t =>
          rw [orLoopF, hp]
          have := ih off rs2 (some (betterOf best t)) hrest
            (fun r hr => hsoft r (List.mem_cons_of_mem _ hr))
          simpa [successesOf, okOf, orFold] using this
        | .error (.internal o tt) =>
          rw [orLoopF, hp]
          have := ih off rs2 best hrest
            (fun r hr => hsoft r (List.mem_cons_of_mem _ hr))
          simpa [successesOf, okOf] using this
        | .error (.indexErr) | .error (.keyErr) | .error (.assertErr)
        | .error (.unhandledSymbolType _) | .error (.unexpectedSymbolType _)
        | .error (.valueErr) | .error (.parseErr _ _ _) =>
          exact absurd (hsoft _ (List.mem_cons_self _ _)) (by simp [softOld])

theorem orFold_argmax :
    ∀ (l : List Tree) (b : Tree),
      ∃ c pre post, orFold (some b) l = some c ∧ b :: l = pre ++ c :: post ∧
        (∀ x ∈ b :: l, x.token_count ≤ c.token_count) ∧
        (∀ x ∈ pre, x.token_count < c.token_count) := by
  intro l
  induction l with
  | nil =>
    intro b
    exact ⟨b, [], [], rfl, rfl, by simp, by simp⟩
  | cons t ts ih =>
    intro b
    by_cases hgt : t.token_count > b.token_count
    · obtain ⟨c, pre, post, heq, hdec, hmax, hpre⟩ := ih t
      refine ⟨c, b :: pre, post, ?_, ?_, ?_, ?_⟩
      · rw [orFold]; simpa [betterOf, hgt] using heq
      · simpa using congrArg (List.cons b) hdec
      · intro x hx
        rcases List.mem_cons.mp hx with rfl | hx2
        · exact le_trans (le_of_lt hgt) (hmax t (List.mem_cons_self _ _))
        · exact hmax x hx2
      · intro x hx
        rcases List.mem_cons.mp hx with rfl | hx2
        · exact lt_of_lt_of_le hgt (hmax t (List.mem_cons_self _ _))
        · exact hpre x hx2
    · obtain ⟨c, pre, post, heq, hdec, hmax, hpre⟩ := ih b
      have hle : t.token_count ≤ b.token_count := Nat.not_lt.mp hgt
      have hstep : orFold (some b) (t :: ts) = some c := by
        rw [orFold]; simpa [betterOf, hgt] using heq
      cases pre with
      | nil =>
        rw [List.nil_append] at hdec
        injection hdec with h1 h2
        subst h1
        refine ⟨b, [], t :: ts, hstep, rfl, ?_, by simp⟩
        intro x hx
        rcases List.mem_cons.mp hx with rfl | hx2
        · exact le_refl _
        · rcases List.mem_cons.mp hx2 with rfl | hx3
          · exact hle
          · exact hmax x (List.mem_cons_of_mem _ hx3)
      | cons b0 pre0 =>
        rw [List.cons_append] at hdec
        injection hdec with h1 h2
        subst h1
        subst h2
        have hbc : b.token_count < c.token_count :=
          hpre b (List.mem_cons_self _ _)
        refine ⟨c, b :: t :: pre0, post, hstep, by simp, ?_, ?_⟩
        · intro x hx
          rcases List.mem_cons.mp hx with rfl | hx2
          · exact hmax x (List.mem_cons_self _ _)
          · rcases List.mem_cons.mp hx2 with rfl | hx3
            · exact le_trans hle (le_of_lt hbc)
            · exact hmax x (List.mem_cons_of_mem _ hx3)
        · intro x hx
          rcases List.mem_cons.mp hx with rfl | hx2
          · exact hbc
          · rcases List.mem_cons.mp hx2 with rfl | hx3
            · exact lt_of_le_of_lt hle hbc
            · exact hpre x (List.mem_cons_of_mem _ hx3)

theorem conjLoopF_eq_first (p : NExpr → Nat → Option (Except NErr Tree)) :
    ∀ (cs : List NExpr) (off : Nat) (rs : List (Except NErr Tree)),
      childResults p cs off = some rs → (∀ r ∈ rs, softNew r = true) →
      conjLoopF p cs off = some (.ok (firstOkOf rs)) := by
  intro cs
  induction cs with
  | nil =>
    intro off rs h _
    simp [childResults] at h
    subst h
    rfl
  | cons c cs ih =>
    intro off rs h hsoft
    rw [childResults] at h
    cases hp : p c off with
    | none => rw [hp] at h; simp at h
    | some r =>
      cases hrest : childResults p cs off with
      | none => rw [hp, hrest] at h; simp at h
      | some rs2 =>
        rw [hp, hrest] at h
        simp at h
        subst h
        match r with
        | .ok t => rw [conjLoopF, hp]; rfl
        | .error (.parseErr o) =>
          rw [conjLoopF, hp]
          exact ih off rs2 hrest (fun r hr => hsoft r (List.mem_cons_of_mem _ hr))
        | .error (.indexErr) | .error (.keyErr) | .error (.assertErr)
        | .error (.missingRoot) | .error (.missingNonTerminalTypes _)
        | .error (.unexpectedNonTerminalTypes _) =>
          exact absurd (hsoft _ (List.mem_cons_self _ _)) (by simp [softNew])

/-- Counterexample for C4: in the new engine, a conjunction whose first
child consumes one token while its second child would consume two selects
the first child — the result does not reflect the longer match. -/
theorem claim4_counterexample :
    parseNew [] [Token.mk "A" 0 1, Token.mk "A" 1 1] 6
        (.conjunction [.terminal "A",
          .concatenation [.terminal "A", .terminal "A"]]) 0 =
      some (.ok (.mk 0 1 none [.mk 0 1 (some "A") []])) ∧
    parseNew [] [Token.mk "A" 0 1, Token.mk "A" 1 1] 6
        (.concatenation [.terminal "A", .terminal "A"]) 0 =
      some (.ok (.mk 0 2 none
        [.mk 0 1 (some "A") [], .mk 1 1 (some "A") []])) :=
  ⟨rfl, rfl⟩

/-- Claim C4 (amended): in the old engine, `OrParser.parse` evaluates every
child in declared order and — when every child outcome is a success or an
`InternalParseError` — selects a success whose consumed token count is
maximal, with ties broken in favour of the earliest-declared success, and
fails with `InternalParseError` at the original offset when no child
succeeds. In the new engine, `Parser._parse_conjunction` instead selects
the first succeeding child in declaration order regardless of consumed
length (and fails at the original offset when every child fails), so there
the longer match is not always chosen. -/
theorem claim4_alternation :
    (∀ (R : List (String × PExpr)) (T : List Token) (fuel : Nat)
        (cs : List PExpr) (off : Nat) (tag : Option String)
        (rs : List (Except OldErr Tree)),
      childResults (parseOld R T fuel) cs off = some rs →
      (∀ r ∈ rs, softOld r = true) →
      (successesOf rs = [] ∧
          parseOld R T (fuel + 1) (.orP tag cs) off =
            some (.error (.internal off tag))) ∨
        (∃ b pre post,
          parseOld R T (fuel + 1) (.orP tag cs) off =
            some (.ok (.mk b.token_offset b.token_count tag [b])) ∧
          successesOf rs = pre ++ b :: post ∧
          (∀ x ∈ successesOf rs, x.token_count ≤ b.token_count) ∧
          (∀ x ∈ pre, x.token_count < b.token_count))) ∧
    (∀ (R : List (String × NExpr)) (T : List Token) (fuel : Nat)
        (cs : List NExpr) (off : Nat) (rs : List (Except NErr Tree)),
      off < T.length →
      childResults (parseNew R T fuel) cs off = some rs →
      (∀ r ∈ rs, softNew r = true) →
      parseNew R T (fuel + 1) (.conjunction cs) off =
        match firstOkOf rs with
        | none => some (.error (.parseErr off))
        | some t => some (.ok (.mk t.token_offset t.token_count none [t]))) := by
  constructor
  · intro R T fuel cs off tag rs h hsoft
    have hloop := orLoopF_eq_fold (parseOld R T fuel) cs off rs none h hsoft
    cases hS : successesOf rs with
    | nil =>
      left
      refine ⟨rfl, ?_⟩
      rw [hS] at hloop
      simp [parseOld, hloop, orFold]
    | cons t S =>
      right
      rw [hS] at hloop
      obtain ⟨c, pre, post, heq, hdec, hmax, hpre⟩ := orFold_argmax S t
      have hfold : orFold none (t :: S) = some c := by
        rw [orFold]; simpa [betterOf] using heq
      rw [hfold] at hloop
      refine ⟨c, pre, post, ?_, hdec, ?_, hpre⟩
      · simp [parseOld, hloop]
      · intro x hx
        exact hmax x hx
  · intro R T fuel cs off rs hlt h hsoft
    have hloop := conjLoopF_eq_first (parseNew R T fuel) cs off rs h hsoft
    cases hF : firstOkOf rs with
    | none =>
      rw [hF] at hloop
      simp [parseNew, Nat.not_le.mpr hlt, hloop]
    | some t =>
      rw [hF] at hloop
      simp [parseNew, Nat.not_le.mpr hlt, hloop]

/-- Witness for C4: the amended claim applied to the concrete two-child
alternation of the counterexample scenario, in both engines. -/
theorem claim4_witness :
    ((successesOf ([.ok (.mk 0 1 (some "A") []),
          .ok (.mk 0 2 none [.mk 0 1 (some "A") [], .mk 1 1 (some "A") []])] :
            List (Except OldErr Tree)) = [] ∧
        parseOld [] [Token.mk "A" 0 1, Token.mk "A" 1 1] 6
          (.orP none [.terminalP "A",
            .concatP none [.terminalP "A", .terminalP "A"]]) 0 =
          some (.error (.internal 0 none))) ∨
      (∃ b pre post,
        parseOld [] [Token.mk "A" 0 1, Token.mk "A" 1 1] 6
            (.orP none [.terminalP "A",
              .concatP none [.terminalP "A", .terminalP "A"]]) 0 =
          some (.ok (.mk b.token_offset b.token_count none [b])) ∧
        successesOf ([.ok (.mk 0 1 (some "A") []),
          .ok (.mk 0 2 none [.mk 0 1 (some "A") [], .mk 1 1 (some "A") []])] :
            List (Except OldErr Tree)) = pre ++ b :: post ∧
        (∀ x ∈ successesOf ([.ok (.mk 0 1 (some "A") []),
          .ok (.mk 0 2 none [.mk 0 1 (some "A") [], .mk 1 1 (some "A") []])] :
            List (Except OldErr Tree)), x.token_count ≤ b.token_count) ∧
        (∀ x ∈ pre, x.token_count < b.token_count))) ∧
    parseNew [] [Token.mk "A" 0 1, Token.mk "A" 1 1] 6
        (.conjunction [.terminal "A",
          .concatenation [.terminal "A", .terminal "A"]]) 0 =
      some (.ok (.mk 0 1 none [.mk 0 1 (some "A") []])) :=
  ⟨claim4_alternation.1 [] [Token.mk "A" 0 1, Token.mk "A" 1 1] 5
      [.terminalP "A", .concatP none [.terminalP "A", .terminalP "A"]] 0 none
      _ rfl (by decide),
    claim4_alternation.2 [] [Token.mk "A" 0 1, Token.mk "A" 1 1] 5
      [.terminal "A", .concatenation [.terminal "A", .terminal "A"]] 0
      _ (by decide) rfl (by decide)⟩

/-! ### Claim C3: root completion check -/

theorem withTokenType_count (t : Tree) (x : Option String) :
    (t.withTokenType x).token_count = t.token_count := by
  cases t; rfl

theorem pruneDriverN_count (S : List String) (t u : Tree)
    (h : pruneDriverN S t = some u) : u.token_count = t.token_count := by
  cases t with
  | mk o k ty cs =>
    cases ty with
    | none => simp [pruneDriverN, pruneNoTokenTypeN] at h
    | some s =>
      simp only [pruneDriverN, pruneNoTokenTypeN, pruneByTokenTypesN,
        Option.some.injEq] at h
      rw [← h]
      rfl

theorem newDriver_ok_count (fuel : Nat) (E : List String)
    (R : List (String × NExpr)) (T : List Token) (S : List String)
    (root : String) (t : Tree)
    (h : newParserParse fuel E R T S root = some (.ok t)) :
    t.token_count = T.length := by
  unfold newParserParse at h
  split at h
  · simp at h
  · split at h
    · split at h
      · simp at h
      · split at h
        · simp at h
        · simp at h
        · rename_i u heq
          simp only at h
          split at h
          · rename_i hcnt
            split at h
            · simp at h
            · rename_i v hd
              simp only [Option.some.injEq, Except.ok.injEq] at h
              rw [← h, pruneDriverN_count _ _ _ hd]
              exact hcnt
          · split at h
            · split at h <;> simp at h
            · simp at h
    · simp at h

theorem newDriver_leftover (fuel : Nat) (E : List String)
    (R : List (String × NExpr)) (T : List Token) (S : List String)
    (root : String) (re : NExpr) (u : Tree) (tk : Token)
    (hc : checkNew E (R.map Prod.fst) = none)
    (hr : E.contains root = true)
    (hl : lookupRule R root = some re)
    (hp : parseNew R T fuel re 0 = some (.ok u))
    (hlt : u.token_count < T.length)
    (htk : T[u.token_count]? = some tk) :
    newParserParse fuel E R T S root = some (.error (.parseErr tk.offset)) := by
  have hwc : (u.withTokenType (some root)).token_count = u.token_count :=
    withTokenType_count u _
  have hr2 : root ∈ E := by simpa using hr
  simp [newParserParse, hc, hr2, hl, hp, hwc, Nat.ne_of_lt hlt, hlt, htk]

/-- Claim C3: the claim says the whole parse fails whenever the root parse
consumes fewer tokens than the input contains, with the failure located at
the first unconsumed token, and succeeds only when every token is
consumed. The old engine compares the consumed token count against
`len(code)` — the character count of the source, not the token count — so
on a token list with a trailing token beyond the character count it
succeeds while a token is left unconsumed (first conjunct; the token list
length is 2 but only 1 token is consumed), and on the natural
tokenization of `"12"` into one two-character NUMBER token it raises, and
then crashes with `IndexError` inside `humanize_parse_error`, although the
root consumed every token (third conjunct). The new engine compares
against `len(self.tokens)` and satisfies the claim: a successful
`Parser.parse` always consumed exactly the whole token list, and a root
parse that leaves tokens over fails with `ParseError` at the source offset
of the first unconsumed token (last two conjuncts). -/
theorem claim3_completion :
    (parseGenericOld 6 ["ROOT"] [("ROOT", .concatP none [.terminalP "A"])]
        [Token.mk "A" 0 1, Token.mk "B" 1 0] "a".toList none none "ROOT" =
      some (.ok (.mk 0 1 (some "ROOT") [.mk 0 1 (some "A") []]))) ∧
    ([Token.mk "A" 0 1, Token.mk "B" 1 0].length = 2) ∧
    (parseGenericOld 6 ["ROOT"] [("ROOT", .concatP none [.terminalP "NUMBER"])]
        [Token.mk "NUMBER" 0 2] "12".toList none none "ROOT" =
      some (.error .indexErr)) ∧
    (∀ (fuel : Nat) (E : List String) (R : List (String × NExpr))
        (T : List Token) (S : List String) (root : String) (t : Tree),
      newParserParse fuel E R T S root = some (.ok t) →
      t.token_count = T.length) ∧
    (∀ (fuel : Nat) (E : List String) (R : List (String × NExpr))
        (T : List Token) (S : List String) (root : String) (re : NExpr)
        (u : Tree) (tk : Token),
      checkNew E (R.map Prod.fst) = none →
      E.contains root = true →
      lookupRule R root = some re →
      parseNew R T fuel re 0 = some (.ok u) →
      u.token_count < T.length →
      T[u.token_count]? = some tk →
      newParserParse fuel E R T S root = some (.error (.parseErr tk.offset))) := by
  refine ⟨?_, rfl, rfl, newDriver_ok_count, newDriver_leftover⟩
  have h1 : parseGenericOld 6 ["ROOT"] [("ROOT", .concatP none [.terminalP "A"])]
      [Token.mk "A" 0 1, Token.mk "B" 1 0] "a".toList none none "ROOT" =
      match fullPruneOld none none
        (Tree.mk 0 1 (some "ROOT") [Tree.mk 0 1 (some "A") []]) with
      | none => some (.error .assertErr)
      | some u => some (.ok u) := rfl
  have h2 : fullPruneOld none none
      (Tree.mk 0 1 (some "ROOT") [Tree.mk 0 1 (some "A") []]) =
      some (Tree.mk 0 1 (some "ROOT") [Tree.mk 0 1 (some "A") []]) := by
    simp [fullPruneOld, pruneNoSymbol, pruneZeroLength, getDescWithList,
      filterZeroList]
  rw [h1, h2]

/-- Witness for C3: the new-engine statements applied at concrete inputs —
a complete parse returns a tree spanning the whole token list, and a parse
that explains only a prefix fails at the source offset (9) of the first
unconsumed token. -/
theorem claim3_witness :
    (Tree.mk 0 1 (some "ROOT") []).token_count = [Token.mk "A" 5 1].length ∧
    newParserParse 3 ["ROOT"] [("ROOT", NExpr.terminal "A")]
        [Token.mk "A" 5 1, Token.mk "B" 9 1] [] "ROOT" =
      some (.error (.parseErr 9)) :=
  ⟨claim3_completion.2.2.2.1 3 ["ROOT"] [("ROOT", NExpr.terminal "A")]
      [Token.mk "A" 5 1] [] "ROOT" (Tree.mk 0 1 (some "ROOT") [])
      (by simp [newParserParse, checkNew, missingOf, unexpectedOf, lookupRule,
        parseNew, Tree.withTokenType, Tree.token_count, pruneDriverN,
        pruneNoTokenTypeN, pruneByTokenTypesN, getDescWithList,
        getDescWithoutList]),
    claim3_completion.2.2.2.2 3 ["ROOT"] [("ROOT", NExpr.terminal "A")]
      [Token.mk "A" 5 1, Token.mk "B" 9 1] [] "ROOT" (NExpr.terminal "A")
      (Tree.mk 0 1 (some "A") []) (Token.mk "B" 9 1)
      rfl rfl rfl rfl (by decide) rfl⟩

/-! ### Claim C6: rule-table validation -/

theorem missingOf_eq_nil (E K : List String) :
    missingOf E K = [] ↔ ∀ n ∈ E, K.contains n = true := by
  simp [missingOf, List.filter_eq_nil_iff]

theorem unexpectedOf_eq_nil (E K : List String) :
    unexpectedOf E K = [] ↔ ∀ k ∈ K, E.contains k = true := by
  simp [unexpectedOf, List.filter_eq_nil_iff]

/-- Counterexample for C6: with two members (`A`, `B`) missing from the
table, the old engine's validation raises `UnhandledSymbolType` naming only
the first missing member, not the missing symbol types. -/
theorem claim6_counterexample :
    checkOld ["ROOT", "A", "B"] ["ROOT"] = some (.unhandledSymbolType "A") ∧
    missingOf ["ROOT", "A", "B"] ["ROOT"] = ["A", "B"] ∧
    ("A" : String) ≠ "B" :=
  ⟨rfl, rfl, by decide⟩

/-- Claim C6 (amended): both engines validate the rule table before any
parsing work with three distinct error kinds — one when an enumeration
member has no entry (naming the first missing member in enumeration order
in the old engine, and the full missing set in the new engine), one naming
the unexpected keys outside the enumeration, and one when the enumeration
has no ROOT member (a plain `ValueError` in the old engine) — and
validation succeeds exactly when every member has an entry, no extra
entries exist, and ROOT is a member. When validation fails, both drivers
return the validation error without parsing. (The non-emptiness
hypotheses exclude the empty rule table, on which both engines crash with
`IndexError` while deriving the enumeration from the first key.) -/
theorem claim6_validation :
    (∀ E K : List String, checkOld E K = none ↔
      (missingOf E K = [] ∧ unexpectedOf E K = [] ∧ E.contains "ROOT" = true)) ∧
    (∀ E K : List String, checkNew E K = none ↔
      (missingOf E K = [] ∧ unexpectedOf E K = [] ∧ E.contains "ROOT" = true)) ∧
    (∀ (E K : List String) (m : String) (ms : List String), K ≠ [] →
      missingOf E K = m :: ms → checkOld E K = some (.unhandledSymbolType m)) ∧
    (∀ E K : List String, K ≠ [] → E.contains "ROOT" = true →
      missingOf E K ≠ [] →
      checkNew E K = some (.missingNonTerminalTypes (missingOf E K))) ∧
    (∀ E K : List String, missingOf E K = [] → unexpectedOf E K ≠ [] →
      checkOld E K = some (.unexpectedSymbolType (unexpectedOf E K))) ∧
    (∀ E K : List String, K ≠ [] → E.contains "ROOT" = true →
      missingOf E K = [] → unexpectedOf E K ≠ [] →
      checkNew E K = some (.unexpectedNonTerminalTypes (unexpectedOf E K))) ∧
    (∀ E K : List String, K ≠ [] → missingOf E K = [] →
      unexpectedOf E K = [] → E.contains "ROOT" = false →
      checkOld E K = some .valueErr) ∧
    (∀ E K : List String, K ≠ [] → E.contains "ROOT" = false →
      checkNew E K = some .missingRoot) ∧
    (∀ (fuel : Nat) (E : List String) (R : List (String × PExpr))
        (T : List Token) (code : List Char) (hard soft : Option (List String))
        (root : String) (er : OldErr),
      checkOld E (R.map Prod.fst) = some er →
      parseGenericOld fuel E R T code hard soft root = some (.error er)) ∧
    (∀ (fuel : Nat) (E : List String) (R : List (String × NExpr))
        (T : List Token) (S : List String) (root : String) (er : NErr),
      checkNew E (R.map Prod.fst) = some er →
      newParserParse fuel E R T S root = some (.error er)) := by
  have hKne : ∀ (E K : List String), missingOf E K = [] →
      E.contains "ROOT" = true → K ≠ [] := by
    intro E K h1 h3 hK
    subst hK
    have hE : E = [] := by
      have := (missingOf_eq_nil E []).mp h1
      cases E with
      | nil => rfl
      | cons a E2 => exact absurd (this a (List.mem_cons_self _ _)) (by simp)
    rw [hE] at h3
    simp at h3
  refine ⟨?_, ?_, ?_, ?_, ?_, ?_, ?_, ?_, ?_, ?_⟩
  · intro E K
    constructor
    · intro h
      rw [checkOld] at h
      by_cases hK : K.isEmpty
      · rw [if_pos hK] at h; simp at h
      · rw [if_neg hK] at h
        cases hm : missingOf E K with
        | cons m ms => rw [hm] at h; simp at h
        | nil =>
          rw [hm] at h
          by_cases hu : (unexpectedOf E K).isEmpty
          · rw [List.isEmpty_iff] at hu
            rw [hu] at h
            simp only [List.isEmpty_nil, Bool.not_true, Bool.false_eq_true,
              if_false] at h
            by_cases hr : E.contains "ROOT"
            · exact ⟨rfl, hu, hr⟩
            · rw [if_neg hr] at h; simp at h
          · have hu2 : (!(unexpectedOf E K).isEmpty) = true := by simpa using hu
            rw [if_pos hu2] at h
            simp at h
    · rintro ⟨h1, h2, h3⟩
      have hK := hKne E K h1 h3
      have h3m : "ROOT" ∈ E := by simpa using h3
      rw [checkOld, if_neg (by simpa [List.isEmpty_iff] using hK), h1, h2]
      simp [h3m]
  · intro E K
    constructor
    · intro h
      rw [checkNew] at h
      by_cases hK : K.isEmpty
      · rw [if_pos hK] at h; simp at h
      · rw [if_neg hK] at h
        by_cases hr : E.contains "ROOT"
        · rw [hr] at h
          simp only [Bool.not_true, Bool.false_eq_true, if_false] at h
          by_cases hm : (missingOf E K).isEmpty
          · rw [List.isEmpty_iff] at hm
            rw [hm] at h
            simp only [List.isEmpty_nil, Bool.not_true, Bool.false_eq_true,
              if_false] at h
            by_cases hu : (unexpectedOf E K).isEmpty
            · exact ⟨hm, List.isEmpty_iff.mp hu, hr⟩
            · have hu2 : (!(unexpectedOf E K).isEmpty) = true := by
                simpa using hu
              rw [if_pos hu2] at h
              simp at h
          · have hm2 : (!(missingOf E K).isEmpty) = true := by simpa using hm
            rw [if_pos hm2] at h
            simp at h
        · rw [Bool.not_eq_true] at hr
          rw [hr] at h
          simp at h
    · rintro ⟨h1, h2, h3⟩
      have hK := hKne E K h1 h3
      rw [checkNew, if_neg (by simpa [List.isEmpty_iff] using hK), h3]
      simp [h1, h2]
  · intro E K m ms hK hm
    rw [checkOld, if_neg (by simpa [List.isEmpty_iff] using hK), hm]
  · intro E K hK hr hm
    rw [checkNew, if_neg (by simpa [List.isEmpty_iff] using hK), hr]
    simp [hm]
  · intro E K hm hu
    have hK : K ≠ [] := by
      intro h
      subst h
      exact hu (by simp [unexpectedOf])
    rw [checkOld, if_neg (by simpa [List.isEmpty_iff] using hK), hm]
    simp [hu]
  · intro E K hK hr hm hu
    rw [checkNew, if_neg (by simpa [List.isEmpty_iff] using hK), hr]
    simp [hm, hu]
  · intro E K hK hm hu hr
    have hrm : "ROOT" ∉ E := by simpa using hr
    rw [checkOld, if_neg (by simpa [List.isEmpty_iff] using hK), hm, hu]
    simp [hrm]
  · intro E K hK hr
    rw [checkNew, if_neg (by simpa [List.isEmpty_iff] using hK), hr]
    simp
  · intro fuel E R T code hard soft root er h
    simp [parseGenericOld, h]
  · intro fuel E R T S root er h
    simp [newParserParse, h]

/-- Witness for C6: the amended claim applied at concrete inputs — a valid
table, a table with a missing member in both engines, and the fail-fast
propagation into the old driver. -/
theorem claim6_witness :
    (checkOld ["ROOT", "A"] ["ROOT", "A"] = none) ∧
    (checkOld ["ROOT", "A"] ["ROOT"] = some (.unhandledSymbolType "A")) ∧
    (checkNew ["ROOT", "A"] ["ROOT"] =
      some (.missingNonTerminalTypes ["A"])) ∧
    (parseGenericOld 3 ["ROOT", "A"] [("ROOT", PExpr.terminalP "A")] []
        [] none none "ROOT" =
      some (.error (.unhandledSymbolType "A"))) := by
  refine ⟨?_, ?_, ?_, ?_⟩
  · exact (claim6_validation.1 ["ROOT", "A"] ["ROOT", "A"]).mpr
      ⟨rfl, rfl, by decide⟩
  · exact claim6_validation.2.2.1 ["ROOT", "A"] ["ROOT"] "A" []
      (by decide) rfl
  · have h := claim6_validation.2.2.2.1 ["ROOT", "A"] ["ROOT"]
      (by decide) (by decide) (by decide)
    simpa using h
  · exact claim6_validation.2.2.2.2.2.2.2.2.1 3 ["ROOT", "A"]
      [("ROOT", PExpr.terminalP "A")] [] [] none none "ROOT"
      (.unhandledSymbolType "A") rfl

/-! ### Claim C8: structural invariants of produced trees -/

/-- The total consumed token count of a list of sibling trees. -/
def sumCnt : List Tree → Nat
  | [] => 0
  | c :: cs => c.token_count + sumCnt cs

/-- The sibling trees are contiguous: the first starts at `off` and each
next one starts where the previous one ended. -/
def chainFrom : Nat → List Tree → Bool
  | _, [] => true
  | off, c :: cs => (c.token_offset == off) && chainFrom (off + c.token_count) cs

/-- Every tree in the list satisfies the node invariant recursively: a node
with children spans contiguous children starting at its own offset and its
count is the sum of their counts. -/
def wfAll : List Tree → Bool
  | [] => true
  | .mk o k _ gs :: cs =>
    ((gs.isEmpty || (chainFrom o gs && (k == sumCnt gs))) && wfAll gs) && wfAll cs

/-- The node invariant of a single tree. -/
def Tree.wellFormed (t : Tree) : Bool := wfAll [t]

theorem wellFormed_mk (o k : Nat) (ty : Option String) (cs : List Tree) :
    (Tree.mk o k ty cs).wellFormed =
      ((cs.isEmpty || (chainFrom o cs && (k == sumCnt cs))) && wfAll cs) := by
  simp [Tree.wellFormed, wfAll]

theorem wfAll_singleton (t : Tree) : wfAll [t] = t.wellFormed := rfl

theorem wfAll_append (a b : List Tree) : wfAll (a ++ b) = (wfAll a && wfAll b) := by
  induction a with
  | nil => simp [wfAll]
  | cons x xs ih =>
    cases x with
    | mk o k ty gs => simp [wfAll, ih, Bool.and_assoc]

theorem sumCnt_append (a b : List Tree) : sumCnt (a ++ b) = sumCnt a + sumCnt b := by
  induction a with
  | nil => simp [sumCnt]
  | cons x xs ih => simp [sumCnt, ih]; omega

theorem chainFrom_append (a b : List Tree) :
    ∀ off, chainFrom off (a ++ b) =
      (chainFrom off a && chainFrom (off + sumCnt a) b) := by
  induction a with
  | nil => intro off; simp [chainFrom, sumCnt]
  | cons x xs ih =>
    intro off
    simp [chainFrom, ih, Bool.and_assoc, sumCnt, Nat.add_assoc]

/-- A tree built from a single good child is well formed. -/
theorem wellFormed_wrap (b : Tree) (tag : Option String) :
    b.wellFormed = true → (Tree.mk b.token_offset b.token_count tag [b]).wellFormed = true := by
  intro h
  rw [wellFormed_mk]
  simp [chainFrom, sumCnt, wfAll_singleton, h]

/-- A childless tree is well formed. -/
theorem wellFormed_leaf (o k : Nat) (ty : Option String) :
    (Tree.mk o k ty []).wellFormed = true := by
  rw [wellFormed_mk]
  simp [wfAll]

theorem orLoopF_good (p : PExpr → Nat → Option (Except OldErr Tree))
    (hp : ∀ c off t, p c off = some (.ok t) →
      t.token_offset = off ∧ t.wellFormed = true) :
    ∀ (cs : List PExpr) (off : Nat) (best : Option Tree) (b : Tree),
      (∀ x, best = some x → x.token_offset = off ∧ x.wellFormed = true) →
      orLoopF p cs off best = some (.ok (some b)) →
      b.token_offset = off ∧ b.wellFormed = true := by
  intro cs
  induction cs with
  | nil =>
    intro off best b hbest h
    simp [orLoopF] at h
    exact hbest b h
  | cons c cs ih =>
    intro off best b hbest h
    rw [orLoopF] at h
    cases hpc : p c off with
    | none => rw [hpc] at h; simp at h
    | some r =>
      rw [hpc] at h
      match r with
      | .ok t =>
        refine ih off (some (betterOf best t)) b ?_ h
        intro x hx
        have hx2 : betterOf best t = x := by simpa using hx
        subst hx2
        cases best with
        | none => simpa [betterOf] using hp c off t hpc
        | some b0 =>
          by_cases hgt : t.token_count > b0.token_count
          · simpa [betterOf, hgt] using hp c off t hpc
          · simpa [betterOf, hgt] using hbest b0 rfl
      | .error (.internal o2 tt) => exact ih off best b hbest h
      | .error .indexErr | .error .keyErr | .error .assertErr
      | .error (.unhandledSymbolType _) | .error (.unexpectedSymbolType _)
      | .error .valueErr | .error (.parseErr _ _ _) => simp at h

theorem concatLoopF_good (p : PExpr → Nat → Option (Except OldErr Tree))
    (hp : ∀ c off t, p c off = some (.ok t) →
      t.token_offset = off ∧ t.wellFormed = true) :
    ∀ (cs : List PExpr) (co : Nat) (acc : List Tree) (out : List Tree) (co2 : Nat),
      concatLoopF p cs co acc = some (.ok (out, co2)) →
      ∃ ext, out = acc ++ ext ∧ chainFrom co ext = true ∧
        co2 = co + sumCnt ext ∧ wfAll ext = true := by
  intro cs
  induction cs with
  | nil =>
    intro co acc out co2 h
    simp [concatLoopF] at h
    exact ⟨[], by simp [h.1.symm], rfl, by simp [sumCnt, h.2], by simp [wfAll]⟩
  | cons c cs ih =>
    intro co acc out co2 h
    rw [concatLoopF] at h
    cases hpc : p c co with
    | none => rw [hpc] at h; simp at h
    | some r =>
      rw [hpc] at h
      match r with
      | .error er => simp at h
      | .ok t =>
        obtain ⟨ho, hwf⟩ := hp c co t hpc
        obtain ⟨ext, he1, he2, he3, he4⟩ := ih (co + t.token_count) (acc ++ [t]) out co2 h
        refine ⟨t :: ext, by simp [he1], ?_, by simp [sumCnt]; omega, ?_⟩
        · rw [chainFrom]
          simp [ho, he2]
        · have : wfAll ([t] ++ ext) = true := by
            rw [wfAll_append]
            simp [wfAll_singleton, hwf, he4]
          simpa using this

theorem repeatLoopF_good (p : PExpr → Nat → Option (Except OldErr Tree))
    (hp : ∀ c off t, p c off = some (.ok t) →
      t.token_offset = off ∧ t.wellFormed = true) :
    ∀ (it : Nat) (c : PExpr) (co : Nat) (acc : List Tree) (out : List Tree) (co2 : Nat),
      repeatLoopF p it c co acc = some (.ok (out, co2)) →
      ∃ ext, out = acc ++ ext ∧ chainFrom co ext = true ∧
        co2 = co + sumCnt ext ∧ wfAll ext = true := by
  intro it
  induction it with
  | zero => intro c co acc out co2 h; simp [repeatLoopF] at h
  | succ n ih =>
    intro c co acc out co2 h
    rw [repeatLoopF] at h
    cases hpc : p c co with
    | none => rw [hpc] at h; simp at h
    | some r =>
      rw [hpc] at h
      match r with
      | .ok t =>
        obtain ⟨ho, hwf⟩ := hp c co t hpc
        obtain ⟨ext, he1, he2, he3, he4⟩ := ih c (co + t.token_count) (acc ++ [t]) out co2 h
        refine ⟨t :: ext, by simp [he1], ?_, by simp [sumCnt]; omega, ?_⟩
        · rw [chainFrom]
          simp [ho, he2]
        · have : wfAll ([t] ++ ext) = true := by
            rw [wfAll_append]
            simp [wfAll_singleton, hwf, he4]
          simpa using this
      | .error (.internal o2 tt) =>
        simp at h
        exact ⟨[], by simp [h.1.symm], rfl, by simp [sumCnt, h.2], by simp [wfAll]⟩
      | .error .indexErr | .error .keyErr | .error .assertErr
      | .error (.unhandledSymbolType _) | .error (.unexpectedSymbolType _)
      | .error .valueErr | .error (.parseErr _ _ _) => simp at h

theorem conjLoopF_good (p : NExpr → Nat → Option (Except NErr Tree))
    (hp : ∀ c off t, p c off = some (.ok t) →
      t.token_offset = off ∧ t.wellFormed = true) :
    ∀ (cs : List NExpr) (off : Nat) (b : Tree),
      conjLoopF p cs off = some (.ok (some b)) →
      b.token_offset = off ∧ b.wellFormed = true := by
  intro cs
  induction cs with
  | nil => intro off b h; simp [conjLoopF] at h
  | cons c cs ih =>
    intro off b h
    rw [conjLoopF] at h
    cases hpc : p c off with
    | none => rw [hpc] at h; simp at h
    | some r =>
      rw [hpc] at h
      match r with
      | .ok t =>
        simp at h
        rw [← h]
        exact hp c off t hpc
      | .error (.parseErr o) => exact ih off b h
      | .error .indexErr | .error .keyErr | .error .assertErr
      | .error .missingRoot | .error (.missingNonTerminalTypes _)
      | .error (.unexpectedNonTerminalTypes _) => simp at h

theorem concatLoopNF_good (p : NExpr → Nat → Option (Except NErr Tree))
    (hp : ∀ c off t, p c off = some (.ok t) →
      t.token_offset = off ∧ t.wellFormed = true) :
    ∀ (cs : List NExpr) (co : Nat) (acc : List Tree) (out : List Tree) (co2 : Nat),
      concatLoopNF p cs co acc = some (.ok (out, co2)) →
      ∃ ext, out = acc ++ ext ∧ chainFrom co ext = true ∧
        co2 = co + sumCnt ext ∧ wfAll ext = true := by
  intro cs
  induction cs with
  | nil =>
    intro co acc out co2 h
    simp [concatLoopNF] at h
    exact ⟨[], by simp [h.1.symm], rfl, by simp [sumCnt, h.2], by simp [wfAll]⟩
  | cons c cs ih =>
    intro co acc out co2 h
    rw [concatLoopNF] at h
    cases hpc : p c co with
    | none => rw [hpc] at h; simp at h
    | some r =>
      rw [hpc] at h
      match r with
      | .error er => simp at h
      | .ok t =>
        obtain ⟨ho, hwf⟩ := hp c co t hpc
        obtain ⟨ext, he1, he2, he3, he4⟩ := ih (co + t.token_count) (acc ++ [t]) out co2 h
        refine ⟨t :: ext, by simp [he1], ?_, by simp [sumCnt]; omega, ?_⟩
        · rw [chainFrom]
          simp [ho, he2]
        · have : wfAll ([t] ++ ext) = true := by
            rw [wfAll_append]
            simp [wfAll_singleton, hwf, he4]
          simpa using this

theorem repeatLoopNF_good (p : NExpr → Nat → Option (Except NErr Tree))
    (hp : ∀ c off t, p c off = some (.ok t) →
      t.token_offset = off ∧ t.wellFormed = true) :
    ∀ (it : Nat) (c : NExpr) (co : Nat) (acc : List Tree) (out : List Tree) (co2 : Nat),
      repeatLoopNF p it c co acc = some (.ok (out, co2)) →
      ∃ ext, out = acc ++ ext ∧ chainFrom co ext = true ∧
        co2 = co + sumCnt ext ∧ wfAll ext = true := by
  intro it
  induction it with
  | zero => intro c co acc out co2 h; simp [repeatLoopNF] at h
  | succ n ih =>
    intro c co acc out co2 h
    rw [repeatLoopNF] at h
    cases hpc : p c co with
    | none => rw [hpc] at h; simp at h
    | some r =>
      rw [hpc] at h
      match r with
      | .ok t =>
        obtain ⟨ho, hwf⟩ := hp c co t hpc
        obtain ⟨ext, he1, he2, he3, he4⟩ := ih c (co + t.token_count) (acc ++ [t]) out co2 h
        refine ⟨t :: ext, by simp [he1], ?_, by simp [sumCnt]; omega, ?_⟩
        · rw [chainFrom]
          simp [ho, he2]
        · have : wfAll ([t] ++ ext) = true := by
            rw [wfAll_append]
            simp [wfAll_singleton, hwf, he4]
          simpa using this
      | .error (.parseErr o) =>
        simp at h
        exact ⟨[], by simp [h.1.symm], rfl, by simp [sumCnt, h.2], by simp [wfAll]⟩
      | .error .indexErr | .error .keyErr | .error .assertErr
      | .error .missingRoot | .error (.missingNonTerminalTypes _)
      | .error (.unexpectedNonTerminalTypes _) => simp at h

theorem parseOld_sound (R : List (String × PExpr)) (T : List Token) :
    ∀ (fuel : Nat) (e : PExpr) (off : Nat) (t : Tree),
      parseOld R T fuel e off = some (.ok t) →
      t.token_offset = off ∧ t.wellFormed = true := by
  intro fuel
  induction fuel using Nat.strong_induction_on with
  | _ fuel ih =>
    match fuel with
    | 0 => intro e off t h; simp [parseOld] at h
    | f + 1 =>
      have hp : ∀ c off t, parseOld R T f c off = some (.ok t) →
          t.token_offset = off ∧ t.wellFormed = true := fun c off t h =>
        ih f (Nat.lt_succ_self f) c off t h
      intro e off t h
      match e with
      | .orP tag cs =>
        simp only [parseOld] at h
        cases hr : orLoopF (parseOld R T f) cs off none with
        | none => rw [hr] at h; simp at h
        | some r =>
          rw [hr] at h
          match r with
          | .error er => simp at h
          | .ok none => simp at h
          | .ok (some b) =>
            simp only [Option.some.injEq, Except.ok.injEq] at h
            subst h
            obtain ⟨hb1, hb2⟩ :=
              orLoopF_good (parseOld R T f) hp cs off none b (by simp) hr
            exact ⟨by simpa [Tree.token_offset] using hb1,
              wellFormed_wrap b tag hb2⟩
      | .repeatP tag c m =>
        simp only [parseOld] at h
        cases hr : repeatLoopF (parseOld R T f) f c off [] with
        | none => rw [hr] at h; simp at h
        | some r =>
          rw [hr] at h
          match r with
          | .error er => simp at h
          | .ok (subs, co) =>
            by_cases hm : subs.length < m
            · simp [hm] at h
            · simp only [hm, if_false, Option.some.injEq, Except.ok.injEq] at h
              subst h
              obtain ⟨ext, he1, he2, he3, he4⟩ :=
                repeatLoopF_good (parseOld R T f) hp f c off [] subs co hr
              have hsubs : subs = ext := by simpa using he1
              subst hsubs
              refine ⟨rfl, ?_⟩
              rw [wellFormed_mk]
              simp [he2, he4, he3, Nat.add_sub_cancel_left]
      | .optionalP tag c =>
        simp only [parseOld] at h
        cases hr : parseOld R T f c off with
        | none => rw [hr] at h; simp at h
        | some r =>
          rw [hr] at h
          match r with
          | .ok u =>
            simp only [Option.some.injEq, Except.ok.injEq] at h
            subst h
            obtain ⟨h1, h2⟩ := hp c off u hr
            refine ⟨rfl, ?_⟩
            rw [wellFormed_mk]
            simp [chainFrom, sumCnt, wfAll_singleton, h1, h2]
          | .error (.internal o2 tt) =>
            simp only [Option.some.injEq, Except.ok.injEq] at h
            subst h
            exact ⟨rfl, wellFormed_leaf _ _ _⟩
          | .error .indexErr | .error .keyErr | .error .assertErr
          | .error (.unhandledSymbolType _) | .error (.unexpectedSymbolType _)
          | .error .valueErr | .error (.parseErr _ _ _) => simp at h
      | .concatP tag cs =>
        simp only [parseOld] at h
        cases hr : concatLoopF (parseOld R T f) cs off [] with
        | none => rw [hr] at h; simp at h
        | some r =>
          rw [hr] at h
          match r with
          | .error er => simp at h
          | .ok (subs, co) =>
            simp only [Option.some.injEq, Except.ok.injEq] at h
            subst h
            obtain ⟨ext, he1, he2, he3, he4⟩ :=
              concatLoopF_good (parseOld R T f) hp cs off [] subs co hr
            have hsubs : subs = ext := by simpa using he1
            subst hsubs
            refine ⟨rfl, ?_⟩
            rw [wellFormed_mk]
            simp [he2, he4, he3, Nat.add_sub_cancel_left]
      | .terminalP tt =>
        simp only [parseOld] at h
        cases ht : T[off]? with
        | none => rw [ht] at h; simp at h
        | some tok =>
          rw [ht] at h
          by_cases htt : tok.type = tt
          · simp only [htt, if_true, Option.some.injEq, Except.ok.injEq] at h
            subst h
            exact ⟨rfl, wellFormed_leaf _ _ _⟩
          · simp [htt] at h
      | .nonTerminalP tt =>
        simp only [parseOld] at h
        cases hl : lookupRule R tt with
        | none => rw [hl] at h; simp at h
        | some body =>
          rw [hl] at h
          exact hp body off t h
      | .literalP s =>
        simp only [parseOld] at h
        by_cases hR : R.isEmpty
        · rw [if_pos hR] at h; simp at h
        · rw [if_neg hR] at h
          cases hl : lookupRule R "internal_NON_TERMINAL_LITERAL" with
          | none => rw [hl] at h; simp at h
          | some body =>
            rw [hl] at h
            exact hp body off t h

theorem parseNew_sound (R : List (String × NExpr)) (T : List Token) :
    ∀ (fuel : Nat) (e : NExpr) (off : Nat) (t : Tree),
      parseNew R T fuel e off = some (.ok t) →
      t.token_offset = off ∧ t.wellFormed = true := by
  intro fuel
  induction fuel using Nat.strong_induction_on with
  | _ fuel ih =>
    match fuel with
    | 0 => intro e off t h; simp [parseNew] at h
    | f + 1 =>
      have hp : ∀ c off t, parseNew R T f c off = some (.ok t) →
          t.token_offset = off ∧ t.wellFormed = true := fun c off t h =>
        ih f (Nat.lt_succ_self f) c off t h
      intro e off t h
      match e with
      | .concatenation cs =>
        by_cases hoff : T.length ≤ off
        · simp only [parseNew, if_pos hoff] at h
          simp at h
        · simp only [parseNew, if_neg hoff] at h
          cases hr : concatLoopNF (parseNew R T f) cs off [] with
          | none => rw [hr] at h; simp at h
          | some r =>
            rw [hr] at h
            match r with
            | .error er => simp at h
            | .ok (subs, co) =>
              simp only [Option.some.injEq, Except.ok.injEq] at h
              subst h
              obtain ⟨ext, he1, he2, he3, he4⟩ :=
                concatLoopNF_good (parseNew R T f) hp cs off [] subs co hr
              have hsubs : subs = ext := by simpa using he1
              subst hsubs
              refine ⟨rfl, ?_⟩
              rw [wellFormed_mk]
              simp [he2, he4, he3, Nat.add_sub_cancel_left]
      | .conjunction cs =>
        by_cases hoff : T.length ≤ off
        · simp only [parseNew, if_pos hoff] at h
          simp at h
        · simp only [parseNew, if_neg hoff] at h
          cases hr : conjLoopF (parseNew R T f) cs off with
          | none => rw [hr] at h; simp at h
          | some r =>
            rw [hr] at h
            match r with
            | .error er => simp at h
            | .ok none => simp at h
            | .ok (some b) =>
              simp only [Option.some.injEq, Except.ok.injEq] at h
              subst h
              obtain ⟨hb1, hb2⟩ := conjLoopF_good (parseNew R T f) hp cs off b hr
              exact ⟨by simpa [Tree.token_offset] using hb1,
                wellFormed_wrap b none hb2⟩
      | .nonTerminal tt =>
        by_cases hoff : T.length ≤ off
        · simp only [parseNew, if_pos hoff] at h
          simp at h
        · simp only [parseNew, if_neg hoff] at h
          cases hl : lookupRule R tt with
          | none => rw [hl] at h; simp at h
          | some body =>
            rw [hl] at h
            replace h : (match parseNew R T f body off with
              | Option.none => (Option.none : Option (Except NErr Tree))
              | Option.some (Except.error er) => Option.some (Except.error er)
              | Option.some (Except.ok child) =>
                Option.some (Except.ok (Tree.mk child.token_offset
                  child.token_count (some tt) [child]))) =
              some (Except.ok t) := h
            cases hr : parseNew R T f body off with
            | none => rw [hr] at h; simp at h
            | some r =>
              rw [hr] at h
              match r with
              | .error er => simp at h
              | .ok child =>
                simp only [Option.some.injEq, Except.ok.injEq] at h
                subst h
                obtain ⟨h1, h2⟩ := hp body off child hr
                exact ⟨by simpa [Tree.token_offset] using h1,
                  wellFormed_wrap child (some tt) h2⟩
      | .optionalE c =>
        by_cases hoff : T.length ≤ off
        · simp only [parseNew, if_pos hoff, Option.some.injEq,
            Except.ok.injEq] at h
          subst h
          exact ⟨rfl, wellFormed_leaf _ _ _⟩
        · simp only [parseNew, if_neg hoff] at h
          cases hr : parseNew R T f c off with
          | none => rw [hr] at h; simp at h
          | some r =>
            rw [hr] at h
            match r with
            | .ok u =>
              simp only [Option.some.injEq, Except.ok.injEq] at h
              subst h
              obtain ⟨h1, h2⟩ := hp c off u hr
              refine ⟨rfl, ?_⟩
              rw [wellFormed_mk]
              simp [chainFrom, sumCnt, wfAll_singleton, h1, h2]
            | .error (.parseErr o) =>
              simp only [Option.some.injEq, Except.ok.injEq] at h
              subst h
              exact ⟨rfl, wellFormed_leaf _ _ _⟩
            | .error .indexErr | .error .keyErr | .error .assertErr
            | .error .missingRoot | .error (.missingNonTerminalTypes _)
            | .error (.unexpectedNonTerminalTypes _) => simp at h
      | .repeatE c =>
        by_cases hoff : T.length ≤ off
        · simp only [parseNew, if_pos hoff, Option.some.injEq,
            Except.ok.injEq] at h
          subst h
          exact ⟨rfl, wellFormed_leaf _ _ _⟩
        · simp only [parseNew, if_neg hoff] at h
          cases hr : repeatLoopNF (parseNew R T f) f c off [] with
          | none => rw [hr] at h; simp at h
          | some r =>
            rw [hr] at h
            match r with
            | .error er => simp at h
            | .ok (subs, co) =>
              simp only [Option.some.injEq, Except.ok.injEq] at h
              subst h
              obtain ⟨ext, he1, he2, he3, he4⟩ :=
                repeatLoopNF_good (parseNew R T f) hp f c off [] subs co hr
              have hsubs : subs = ext := by simpa using he1
              subst hsubs
              refine ⟨rfl, ?_⟩
              rw [wellFormed_mk]
              simp [he2, he4, he3, Nat.add_sub_cancel_left]
      | .terminal tt =>
        by_cases hoff : T.length ≤ off
        · simp only [parseNew, if_pos hoff] at h
          simp at h
        · simp only [parseNew, if_neg hoff] at h
          cases ht : T[off]? with
          | none => rw [ht] at h; simp at h
          | some tok =>
            rw [ht] at h
            by_cases htt : tok.type = tt
            · simp only [htt, if_true, Option.some.injEq, Except.ok.injEq] at h
              subst h
              exact ⟨rfl, wellFormed_leaf _ _ _⟩
            · simp [htt] at h

/-- The descendant relation on trees (reflexive-transitive through the
child lists). -/
inductive Descendant : Tree → Tree → Prop where
  | refl (t : Tree) : Descendant t t
  | step {d c t : Tree} : c ∈ t.children → Descendant d c → Descendant d t

theorem chainFrom_mem_span :
    ∀ (cs : List Tree) (off : Nat) (c : Tree), chainFrom off cs = true →
      c ∈ cs → off ≤ c.token_offset ∧
        c.token_offset + c.token_count ≤ off + sumCnt cs := by
  intro cs
  induction cs with
  | nil => intro off c _ hc; simp at hc
  | cons c0 cs ih =>
    intro off c hch hc
    rw [chainFrom, Bool.and_eq_true] at hch
    obtain ⟨h0, hrest⟩ := hch
    have h0e : c0.token_offset = off := by simpa using h0
    rcases List.mem_cons.mp hc with rfl | hc2
    · constructor
      · omega
      · simp [sumCnt]; omega
    · obtain ⟨ha, hb⟩ := ih (off + c0.token_count) c hrest hc2
      constructor
      · omega
      · simp [sumCnt]; omega

theorem wfAll_mem : ∀ (cs : List Tree) (c : Tree), wfAll cs = true → c ∈ cs →
    c.wellFormed = true := by
  intro cs
  induction cs with
  | nil => intro c _ hc; simp at hc
  | cons x xs ih =>
    intro c h hc
    cases x with
    | mk o k ty gs =>
      rw [wfAll, Bool.and_eq_true, Bool.and_eq_true] at h
      obtain ⟨⟨h1, h2⟩, h3⟩ := h
      rcases List.mem_cons.mp hc with rfl | hc2
      · rw [wellFormed_mk, Bool.and_eq_true]
        exact ⟨h1, h2⟩
      · exact ih c h3 hc2

theorem wf_span {d t : Tree} (hd : Descendant d t) : t.wellFormed = true →
    t.token_offset ≤ d.token_offset ∧
      d.token_offset + d.token_count ≤ t.token_offset + t.token_count := by
  induction hd with
  | refl => intro _; exact ⟨le_refl _, le_refl _⟩
  | @step c t2 hmem hdesc ih =>
    intro hwf
    cases t2 with
    | mk o k ty cs =>
      simp only [children_mk] at hmem
      rw [wellFormed_mk, Bool.and_eq_true] at hwf
      obtain ⟨hor, hall⟩ := hwf
      have hne : cs.isEmpty = false := by
        cases cs with
        | nil => simp at hmem
        | cons a b => rfl
      rw [hne, Bool.false_or, Bool.and_eq_true] at hor
      obtain ⟨hch, hk⟩ := hor
      have hke : k = sumCnt cs := by simpa using hk
      obtain ⟨hs1, hs2⟩ := chainFrom_mem_span cs o c hch hmem
      obtain ⟨hi1, hi2⟩ := ih (wfAll_mem cs c hall hmem)
      simp only [token_offset_mk, token_count_mk]
      omega

/-- Claim C8: every tree produced by a successful parse of either engine
starts at the requested offset and satisfies the node invariant
recursively — a node with children spans exactly its contiguous children,
whose counts sum to its token_count — and consequently every descendant's
span is contained within the span of each of its ancestors. -/
theorem claim8_tree_invariants :
    (∀ (R : List (String × PExpr)) (T : List Token) (fuel : Nat) (e : PExpr)
        (off : Nat) (t : Tree), parseOld R T fuel e off = some (.ok t) →
      t.token_offset = off ∧ t.wellFormed = true) ∧
    (∀ (R : List (String × NExpr)) (T : List Token) (fuel : Nat) (e : NExpr)
        (off : Nat) (t : Tree), parseNew R T fuel e off = some (.ok t) →
      t.token_offset = off ∧ t.wellFormed = true) ∧
    (∀ (t d : Tree), Descendant d t → t.wellFormed = true →
      t.token_offset ≤ d.token_offset ∧
        d.token_offset + d.token_count ≤ t.token_offset + t.token_count) :=
  ⟨fun R T => parseOld_sound R T, fun R T => parseNew_sound R T,
    fun _ _ hd hwf => wf_span hd hwf⟩

/-- Witness for C8: the invariants evaluated on the tree produced by a
concrete two-terminal concatenation parse, and the span bound for its
second child. -/
theorem claim8_witness :
    ((Tree.mk 0 2 none [Tree.mk 0 1 (some "A") [], Tree.mk 1 1 (some "A") []]).token_offset = 0 ∧
      (Tree.mk 0 2 none [Tree.mk 0 1 (some "A") [], Tree.mk 1 1 (some "A") []]).wellFormed = true) ∧
    ((Tree.mk 0 2 none [Tree.mk 0 1 (some "A") [], Tree.mk 1 1 (some "A") []]).token_offset ≤
        (Tree.mk 1 1 (some "A") []).token_offset ∧
      (Tree.mk 1 1 (some "A") []).token_offset + (Tree.mk 1 1 (some "A") []).token_count ≤
        (Tree.mk 0 2 none [Tree.mk 0 1 (some "A") [], Tree.mk 1 1 (some "A") []]).token_offset +
          (Tree.mk 0 2 none [Tree.mk 0 1 (some "A") [], Tree.mk 1 1 (some "A") []]).token_count) := by
  have h := claim8_tree_invariants.1 [] [Token.mk "A" 0 1, Token.mk "A" 1 1] 5
    (.concatP none [.terminalP "A", .terminalP "A"]) 0
    (Tree.mk 0 2 none [Tree.mk 0 1 (some "A") [], Tree.mk 1 1 (some "A") []]) rfl
  refine ⟨h, ?_⟩
  exact claim8_tree_invariants.2.2 _ (Tree.mk 1 1 (some "A") [])
    (.step (by simp [Tree.children]) (.refl _)) h.2

/-! ### Claim C9: idempotence and order preservation of pruning -/

/-- A node-data predicate holding of every node in a list of trees and all
of their descendants. -/
def dataPredList (p : Nat → Nat → Option String → Bool) : List Tree → Bool
  | [] => true
  | .mk o k ty gs :: cs => p o k ty && dataPredList p gs && dataPredList p cs

/-- Structural induction over lists of trees, descending both into the
children of the head and into the tail. -/
def treeListInd {P : List Tree → Prop} (hnil : P [])
    (hcons : ∀ o k ty gs cs, P gs → P cs → P (.mk o k ty gs :: cs)) :
    ∀ cs, P cs
  | [] => hnil
  | .mk o k ty gs :: cs =>
    hcons o k ty gs cs (treeListInd hnil hcons gs) (treeListInd hnil hcons cs)

theorem dataPredList_append (p : Nat → Nat → Option String → Bool) :
    ∀ a b, dataPredList p (a ++ b) = (dataPredList p a && dataPredList p b) := by
  intro a
  induction a using treeListInd with
  | hnil => intro b; simp [dataPredList]
  | hcons o k ty gs cs ihg ihc =>
    intro b
    simp [dataPredList, ihc, Bool.and_assoc]

theorem getDescWithList_tagged :
    ∀ cs, dataPredList (fun _ _ ty => ty.isSome) (getDescWithList cs) = true := by
  intro cs
  induction cs using treeListInd with
  | hnil => simp [getDescWithList, dataPredList]
  | hcons o k ty gs cs ihg ihc =>
    cases ty with
    | none => rw [getDescWithList]; simp [dataPredList_append, ihg, ihc]
    | some s =>
      rw [getDescWithList]
      simp [dataPredList_append, dataPredList, ihg, ihc]

theorem getDescWithList_id :
    ∀ cs, dataPredList (fun _ _ ty => ty.isSome) cs = true →
      getDescWithList cs = cs := by
  intro cs
  induction cs using treeListInd with
  | hnil => intro _; simp [getDescWithList]
  | hcons o k ty gs cs ihg ihc =>
    intro h
    simp only [dataPredList, Bool.and_eq_true] at h
    obtain ⟨⟨hp, hgs⟩, hcs⟩ := h
    obtain ⟨s, rfl⟩ := Option.isSome_iff_exists.mp hp
    rw [getDescWithList]
    simp [ihg hgs, ihc hcs]

theorem getDescWithList_pres (p : Nat → Nat → Option String → Bool) :
    ∀ cs, dataPredList p cs = true →
      dataPredList p (getDescWithList cs) = true := by
  intro cs
  induction cs using treeListInd with
  | hnil => intro _; simp [getDescWithList, dataPredList]
  | hcons o k ty gs cs ihg ihc =>
    intro h
    simp only [dataPredList, Bool.and_eq_true] at h
    obtain ⟨⟨hp, hgs⟩, hcs⟩ := h
    cases ty with
    | none => rw [getDescWithList]; simp [dataPredList_append, ihg hgs, ihc hcs]
    | some s =>
      rw [getDescWithList]
      simp [dataPredList_append, dataPredList, hp, ihg hgs, ihc hcs]

theorem getDescWithoutList_none (tts : List String) :
    ∀ cs, dataPredList (fun _ _ ty => !(optMem ty tts))
      (getDescWithoutList tts cs) = true := by
  intro cs
  induction cs using treeListInd with
  | hnil => simp [getDescWithoutList, dataPredList]
  | hcons o k ty gs cs ihg ihc =>
    rw [getDescWithoutList]
    cases hmem : optMem ty tts with
    | true => simp [dataPredList_append, ihg, ihc]
    | false => simp [dataPredList_append, dataPredList, hmem, ihg, ihc]

theorem getDescWithoutList_id (tts : List String) :
    ∀ cs, dataPredList (fun _ _ ty => !(optMem ty tts)) cs = true →
      getDescWithoutList tts cs = cs := by
  intro cs
  induction cs using treeListInd with
  | hnil => intro _; simp [getDescWithoutList]
  | hcons o k ty gs cs ihg ihc =>
    intro h
    simp only [dataPredList, Bool.and_eq_true] at h
    obtain ⟨⟨hp, hgs⟩, hcs⟩ := h
    have hmem : optMem ty tts = false := by simpa using hp
    rw [getDescWithoutList]
    simp [hmem, ihg hgs, ihc hcs]

theorem getDescWithoutList_pres (tts : List String)
    (p : Nat → Nat → Option String → Bool) :
    ∀ cs, dataPredList p cs = true →
      dataPredList p (getDescWithoutList tts cs) = true := by
  intro cs
  induction cs using treeListInd with
  | hnil => intro _; simp [getDescWithoutList, dataPredList]
  | hcons o k ty gs cs ihg ihc =>
    intro h
    simp only [dataPredList, Bool.and_eq_true] at h
    obtain ⟨⟨hp, hgs⟩, hcs⟩ := h
    rw [getDescWithoutList]
    cases hmem : optMem ty tts with
    | true => simp [dataPredList_append, ihg hgs, ihc hcs]
    | false => simp [dataPredList_append, dataPredList, hp, ihg hgs, ihc hcs]

theorem filterZeroList_nonzero :
    ∀ cs, dataPredList (fun _ k _ => !(k == 0)) (filterZeroList cs) = true := by
  intro cs
  induction cs using treeListInd with
  | hnil => simp [filterZeroList, dataPredList]
  | hcons o k ty gs cs ihg ihc =>
    rw [filterZeroList]
    by_cases hk : k = 0
    · simp [hk, ihc]
    · simp [hk, dataPredList_append, dataPredList, ihg, ihc]

theorem filterZeroList_id :
    ∀ cs, dataPredList (fun _ k _ => !(k == 0)) cs = true →
      filterZeroList cs = cs := by
  intro cs
  induction cs using treeListInd with
  | hnil => intro _; simp [filterZeroList]
  | hcons o k ty gs cs ihg ihc =>
    intro h
    simp only [dataPredList, Bool.and_eq_true] at h
    obtain ⟨⟨hp, hgs⟩, hcs⟩ := h
    have hk : ¬k = 0 := by simpa using hp
    rw [filterZeroList]
    simp [hk, ihg hgs, ihc hcs]

theorem filterZeroList_pres (p : Nat → Nat → Option String → Bool) :
    ∀ cs, dataPredList p cs = true →
      dataPredList p (filterZeroList cs) = true := by
  intro cs
  induction cs using treeListInd with
  | hnil => intro _; simp [filterZeroList, dataPredList]
  | hcons o k ty gs cs ihg ihc =>
    intro h
    simp only [dataPredList, Bool.and_eq_true] at h
    obtain ⟨⟨hp, hgs⟩, hcs⟩ := h
    rw [filterZeroList]
    by_cases hk : k = 0
    · simp [hk, ihc hcs]
    · simp [hk, dataPredList_append, dataPredList, hp, ihg hgs, ihc hcs]

theorem dropTtsList_none (tts : List String) :
    ∀ cs, dataPredList (fun _ _ ty => !(optMem ty tts))
      (dropTtsList tts cs) = true := by
  intro cs
  induction cs using treeListInd with
  | hnil => simp [dropTtsList, dataPredList]
  | hcons o k ty gs cs ihg ihc =>
    rw [dropTtsList]
    cases hmem : optMem ty tts with
    | true => simp [ihc]
    | false => simp [dataPredList_append, dataPredList, hmem, ihg, ihc]

theorem dropTtsList_id (tts : List String) :
    ∀ cs, dataPredList (fun _ _ ty => !(optMem ty tts)) cs = true →
      dropTtsList tts cs = cs := by
  intro cs
  induction cs using treeListInd with
  | hnil => intro _; simp [dropTtsList]
  | hcons o k ty gs cs ihg ihc =>
    intro h
    simp only [dataPredList, Bool.and_eq_true] at h
    obtain ⟨⟨hp, hgs⟩, hcs⟩ := h
    have hmem : optMem ty tts = false := by simpa using hp
    rw [dropTtsList]
    simp [hmem, ihg hgs, ihc hcs]

theorem dropTtsList_pres (tts : List String)
    (p : Nat → Nat → Option String → Bool) :
    ∀ cs, dataPredList p cs = true →
      dataPredList p (dropTtsList tts cs) = true := by
  intro cs
  induction cs using treeListInd with
  | hnil => intro _; simp [dropTtsList, dataPredList]
  | hcons o k ty gs cs ihg ihc =>
    intro h
    simp only [dataPredList, Bool.and_eq_true] at h
    obtain ⟨⟨hp, hgs⟩, hcs⟩ := h
    rw [dropTtsList]
    cases hmem : optMem ty tts with
    | true => simp [ihc hcs]
    | false => simp [dataPredList_append, dataPredList, hp, ihg hgs, ihc hcs]

/-- Each member of a list satisfying a node-data predicate satisfies it at
its own node and recursively below. -/
theorem dataPredList_mem (p : Nat → Nat → Option String → Bool) :
    ∀ cs, dataPredList p cs = true → ∀ c ∈ cs,
      p c.token_offset c.token_count c.token_type = true ∧
        dataPredList p c.children = true := by
  intro cs
  induction cs using treeListInd with
  | hnil => intro _ c hc; simp at hc
  | hcons o k ty gs cs ihg ihc =>
    intro h c hc
    simp only [dataPredList, Bool.and_eq_true] at h
    obtain ⟨⟨hp, hgs⟩, hcs⟩ := h
    rcases List.mem_cons.mp hc with rfl | hc2
    · exact ⟨by simpa [token_offset_mk, token_count_mk, token_type_mk] using hp,
        by simpa [children_mk] using hgs⟩
    · exact ihc hcs c hc2

/-- The redundant per-child re-filter in `_prune_by_token_types` is the
identity on the already-filtered descendant list, so the function keeps
the root node over the filtered children. -/
theorem pruneByTokenTypesN_eq (t : Tree) (tts : List String) :
    pruneByTokenTypesN t tts =
      Tree.mk t.token_offset t.token_count t.token_type
        (getDescWithoutList tts t.children) := by
  cases t with
  | mk o k ty cs =>
    simp only [pruneByTokenTypesN, token_offset_mk, token_count_mk,
      token_type_mk, children_mk]
    congr 1
    have hclean := getDescWithoutList_none tts cs
    generalize hds : getDescWithoutList tts cs = ds
    rw [hds] at hclean
    clear hds
    induction ds with
    | nil => rfl
    | cons d rest ih =>
      cases d with
      | mk o2 k2 ty2 gs2 =>
        simp only [dataPredList, Bool.and_eq_true] at hclean
        obtain ⟨⟨hp, hgs⟩, hrest⟩ := hclean
        simp only [List.map_cons, token_offset_mk, token_count_mk,
          token_type_mk, children_mk]
        rw [getDescWithoutList_id tts gs2 hgs, ih hrest]

/-- Running the new engine's pruning pipeline a second time is the
identity on its own output. -/
theorem pruneDriverN_idem (S : List String) (t u : Tree)
    (h : pruneDriverN S t = some u) : pruneDriverN S u = some u := by
  cases t with
  | mk o k ty cs =>
    cases ty with
    | none => simp [pruneDriverN, pruneNoTokenTypeN] at h
    | some ty0 =>
      simp only [pruneDriverN, pruneNoTokenTypeN, Option.some.injEq] at h
      rw [pruneByTokenTypesN_eq] at h
      simp only [token_offset_mk, token_count_mk, token_type_mk,
        children_mk] at h
      have hTag : dataPredList (fun _ _ ty => ty.isSome)
          (getDescWithoutList S (getDescWithList cs)) = true :=
        getDescWithoutList_pres S _ _ (getDescWithList_tagged cs)
      have hNone : dataPredList (fun _ _ ty => !(optMem ty S))
          (getDescWithoutList S (getDescWithList cs)) = true :=
        getDescWithoutList_none S _
      rw [← h]
      simp only [pruneDriverN, pruneNoTokenTypeN,
        getDescWithList_id _ hTag, Option.some.injEq]
      rw [pruneByTokenTypesN_eq]
      simp only [token_offset_mk, token_count_mk, token_type_mk, children_mk]
      rw [getDescWithoutList_id S _ hNone]

/-- Running the old engine's full pruning pipeline a second time is the
identity on its own output. -/
theorem fullPruneOld_idem (H S : List String) (t u : Tree)
    (h : fullPruneOld (some H) (some S) t = some u) :
    fullPruneOld (some H) (some S) u = some u := by
  cases t with
  | mk o k ty cs =>
    cases ty with
    | none => simp [fullPruneOld, pruneNoSymbol] at h
    | some ty0 =>
      by_cases hk : k = 0
      · simp [fullPruneOld, pruneNoSymbol, pruneZeroLength, hk] at h
      · simp only [fullPruneOld, pruneNoSymbol, pruneZeroLength,
          pruneBySymbolTypes, hk, if_false, Option.some.injEq] at h
        have hTag : dataPredList (fun _ _ ty => ty.isSome)
            (dropTtsList S (getDescWithoutList H
              (filterZeroList (getDescWithList cs)))) = true :=
          dropTtsList_pres S _ _ (getDescWithoutList_pres H _ _
            (filterZeroList_pres _ _ (getDescWithList_tagged cs)))
        have hNz : dataPredList (fun _ k _ => !(k == 0))
            (dropTtsList S (getDescWithoutList H
              (filterZeroList (getDescWithList cs)))) = true :=
          dropTtsList_pres S _ _ (getDescWithoutList_pres H _ _
            (filterZeroList_nonzero _))
        have hH : dataPredList (fun _ _ ty => !(optMem ty H))
            (dropTtsList S (getDescWithoutList H
              (filterZeroList (getDescWithList cs)))) = true :=
          dropTtsList_pres S _ _ (getDescWithoutList_none H _)
        have hS : dataPredList (fun _ _ ty => !(optMem ty S))
            (dropTtsList S (getDescWithoutList H
              (filterZeroList (getDescWithList cs)))) = true :=
          dropTtsList_none S _
        rw [← h]
        simp [fullPruneOld, pruneNoSymbol, pruneZeroLength,
          pruneBySymbolTypes, getDescWithList_id _ hTag, hk,
          filterZeroList_id _ hNz, getDescWithoutList_id H _ hH,
          dropTtsList_id S _ hS]

/-- Preorder node-data traversal of a list of sibling trees. -/
def preList : List Tree → List (Nat × Nat × Option String)
  | [] => []
  | .mk o k ty gs :: cs => (o, k, ty) :: (preList gs ++ preList cs)

theorem preList_append : ∀ a b, preList (a ++ b) = preList a ++ preList b := by
  intro a
  induction a using treeListInd with
  | hnil => intro b; simp [preList]
  | hcons o k ty gs cs ihg ihc =>
    intro b
    simp [preList, ihc]

theorem preList_sublist_getDescWith :
    ∀ cs, (preList (getDescWithList cs)).Sublist (preList cs) := by
  intro cs
  induction cs using treeListInd with
  | hnil => simp [getDescWithList]
  | hcons o k ty gs cs ihg ihc =>
    cases ty with
    | none =>
      rw [getDescWithList, preList, preList_append]
      exact (ihg.append ihc).cons _
    | some s =>
      rw [getDescWithList, preList, preList_append, preList]
      simpa [preList] using List.Sublist.cons₂ (o, k, some s) (ihg.append ihc)

theorem preList_sublist_getDescWithout (tts : List String) :
    ∀ cs, (preList (getDescWithoutList tts cs)).Sublist (preList cs) := by
  intro cs
  induction cs using treeListInd with
  | hnil => simp [getDescWithoutList]
  | hcons o k ty gs cs ihg ihc =>
    rw [getDescWithoutList, preList]
    cases hmem : optMem ty tts with
    | true =>
      rw [if_pos rfl, preList_append]
      exact (ihg.append ihc).cons _
    | false =>
      rw [if_neg (by simp), preList_append, preList]
      simpa [preList] using List.Sublist.cons₂ (o, k, ty) (ihg.append ihc)

theorem preList_sublist_filterZero :
    ∀ cs, (preList (filterZeroList cs)).Sublist (preList cs) := by
  intro cs
  induction cs using treeListInd with
  | hnil => simp [filterZeroList]
  | hcons o k ty gs cs ihg ihc =>
    rw [filterZeroList, preList]
    by_cases hk : k = 0
    · rw [if_pos hk]
      simp only [List.nil_append]
      exact (ihc.trans (List.sublist_append_right _ _)).cons _
    · rw [if_neg hk, preList_append, preList]
      simpa [preList] using List.Sublist.cons₂ (o, k, ty) (ihg.append ihc)

theorem preList_sublist_dropTts (tts : List String) :
    ∀ cs, (preList (dropTtsList tts cs)).Sublist (preList cs) := by
  intro cs
  induction cs using treeListInd with
  | hnil => simp [dropTtsList]
  | hcons o k ty gs cs ihg ihc =>
    rw [dropTtsList, preList]
    cases hmem : optMem ty tts with
    | true =>
      rw [if_pos rfl]
      simp only [List.nil_append]
      exact (ihc.trans (List.sublist_append_right _ _)).cons _
    | false =>
      rw [if_neg (by simp), preList_append, preList]
      simpa [preList] using List.Sublist.cons₂ (o, k, ty) (ihg.append ihc)

/-- Claim C9: applying the full pruning pipeline a second time to the tree
produced by a first application returns that tree unchanged, for both the
new engine's pipeline (`_prune_no_token_type` then `_prune_by_token_types`)
and the spec-modelled three-stage pipeline of `parse_generic` with fixed
hard and soft symbol sets; and every elision stage only removes nodes —
the preorder node-data traversal of its output is a sublist of the
traversal of its input, so surviving sibling nodes are never reordered. -/
theorem claim9_pruning_idempotent :
    (∀ (S : List String) (t u : Tree),
      pruneDriverN S t = some u → pruneDriverN S u = some u) ∧
    (∀ (H S : List String) (t u : Tree),
      fullPruneOld (some H) (some S) t = some u →
      fullPruneOld (some H) (some S) u = some u) ∧
    (∀ cs, (preList (getDescWithList cs)).Sublist (preList cs)) ∧
    (∀ (tts : List String) cs,
      (preList (getDescWithoutList tts cs)).Sublist (preList cs)) ∧
    (∀ cs, (preList (filterZeroList cs)).Sublist (preList cs)) ∧
    (∀ (tts : List String) cs,
      (preList (dropTtsList tts cs)).Sublist (preList cs)) :=
  ⟨pruneDriverN_idem, fullPruneOld_idem, preList_sublist_getDescWith,
    preList_sublist_getDescWithout, preList_sublist_filterZero,
    preList_sublist_dropTts⟩

/-- Witness for C9: idempotence applied to a concrete tree through both
pipelines. -/
theorem claim9_witness :
    pruneDriverN ["H"]
        (Tree.mk 0 2 (some "ROOT")
          [Tree.mk 0 1 (some "A") [], Tree.mk 1 1 (some "B") []]) =
      some (Tree.mk 0 2 (some "ROOT")
        [Tree.mk 0 1 (some "A") [], Tree.mk 1 1 (some "B") []]) ∧
    fullPruneOld (some ["H"]) (some ["S"])
        (Tree.mk 0 1 (some "ROOT") [Tree.mk 0 1 (some "A") []]) =
      some (Tree.mk 0 1 (some "ROOT") [Tree.mk 0 1 (some "A") []]) :=
  ⟨claim9_pruning_idempotent.1 ["H"]
      (Tree.mk 0 2 (some "ROOT")
        [Tree.mk 0 1 none [Tree.mk 0 1 (some "A") []],
         Tree.mk 1 1 (some "H") [Tree.mk 1 1 (some "B") []]])
      (Tree.mk 0 2 (some "ROOT")
        [Tree.mk 0 1 (some "A") [], Tree.mk 1 1 (some "B") []])
      (by simp [pruneDriverN, pruneNoTokenTypeN, pruneByTokenTypesN,
        getDescWithList, getDescWithoutList, optMem, token_offset_mk,
        token_count_mk, token_type_mk, children_mk]),
    claim9_pruning_idempotent.2.1 ["H"] ["S"]
      (Tree.mk 0 1 (some "ROOT")
        [Tree.mk 0 1 none [Tree.mk 0 1 (some "A") []],
         Tree.mk 0 0 (some "E") []])
      (Tree.mk 0 1 (some "ROOT") [Tree.mk 0 1 (some "A") []])
      (by simp [fullPruneOld, pruneNoSymbol, pruneZeroLength,
        pruneBySymbolTypes, getDescWithList, filterZeroList,
        getDescWithoutList, dropTtsList, optMem])⟩

end ParserSpec
